import Mathlib

/-!
Verification of the GenerNews generation pipeline (App state handlers,
`geminiService.ts`, `pexelsService.ts`) against its specification.

The TypeScript sources are shallowly embedded: pure functions become Lean
functions on `String` / `List Char`; regex-driven text rewriting becomes
fuelled left-to-right scanners; asynchronous backend calls become explicit
result values (`CallResult`); browser/host builtins (`URL`, `JSON.parse`,
`String.prototype.trim`, IndexedDB) are modelled by small executable Lean
functions documented at their definition sites.
-/

namespace Publisher

/-- `NewsSource` from `types.ts`: a `{title, uri}` citation pair. -/
structure NewsSource where
  title : String
  uri : String
deriving DecidableEq

/-- The `'image' | 'video'` tag of `MediaItem` in `types.ts`. -/
inductive MediaType where
  | image
  | video
deriving DecidableEq

/-- `MediaItem` from `types.ts`: `data` is a base64 payload or a URL. -/
structure MediaItem where
  type : MediaType
  data : String
  mimeType : String
deriving DecidableEq

/-- The `Language` union from `types.ts`. -/
inductive Language where
  | es
  | en
  | fr
  | pt
  | de
deriving DecidableEq

/-- `RawSourceChunk` from `types.ts` (nullable fields become `Option`). -/
structure RawSourceChunk where
  title : Option String
  uri : Option String
  snippet : Option String
  provider : Option String
deriving DecidableEq

/-- `ChartData` from `types.ts` (numeric values modelled as `Int`). -/
structure ChartData where
  title : String
  labels : List String
  values : List Int
  unit : Option String
deriving DecidableEq

/-- `NewsArticle` from `types.ts`; optional TS fields become `Option`. -/
structure NewsArticle where
  id : String
  createdAt : Nat
  topic : String
  title : String
  content : String
  sources : List NewsSource
  rawSources : Option (List RawSourceChunk)
  media : List MediaItem
  audioUrl : Option String
  language : Language
  keywords : List String
  metaDescription : String
  imagePrompt : String
  chartData : Option ChartData
deriving DecidableEq

/-- The `'topic' | 'document'` input mode of the app. -/
inductive InputMode where
  | topic
  | document
deriving DecidableEq

/- ### History store (`finalizeArticle`, App component) -/

/-- The history update in `finalizeArticle`:
`const newHistory = [finalArticle, ...history].slice(0, 10)`. -/
def appendHistory (a : NewsArticle) (history : List NewsArticle) : List NewsArticle :=
  (a :: history).take 10

/-- Successive `finalizeArticle` history updates starting from an empty
history, applied in chronological order of finalization. -/
def runAppends (articles : List NewsArticle) : List NewsArticle :=
  articles.foldl (fun h a => appendHistory a h) []

/-- The stripping map in `finalizeArticle`:
`newHistory.map(h => ({...h, audioUrl: undefined}))`. -/
def stripAudioForHistory (a : NewsArticle) : NewsArticle :=
  { a with audioUrl := none }

/-- `const historyToSave = newHistory.map(h => ({...h, audioUrl: undefined}))`. -/
def historyToSave (newHistory : List NewsArticle) : List NewsArticle :=
  newHistory.map stripAudioForHistory

/-- An audio payload persisted in the `NewsGenAudioDB` IndexedDB store;
only its identity matters here, so it is a wrapped byte list. -/
structure AudioBlob where
  bytes : List Nat
deriving DecidableEq

/-- Modelled from the IndexedDB object store used by `saveAudioToDB` /
`getAudioFromDB`: a key-value store from article ids to audio blobs,
where `put` replaces any previous entry for the same key. -/
def AudioStore : Type := List (String × AudioBlob)

/-- `saveAudioToDB(id, audioBlob)`: `tx.objectStore(STORE_NAME).put(audioBlob, id)`. -/
def saveAudioToDB (id : String) (audioBlob : AudioBlob) (db : AudioStore) : AudioStore :=
  (id, audioBlob) :: db.filter (fun e => e.1 != id)

/-- `getAudioFromDB(id)`: `tx.objectStore(STORE_NAME).get(id)`. -/
def getAudioFromDB (id : String) (db : AudioStore) : Option AudioBlob :=
  (db.find? (fun e => e.1 == id)).map (fun e => e.2)

/- ### Media handlers (`handleSort`, `handleConfirmText`, App component) -/

/-- `handleSort` in the App component, for a drag from index `dragIdx` to
index `overIdx`:
`_media.splice(dragItem.current, 1); _media.splice(dragOverItem.current, 0, draggedItemContent)`.
The handler is only reachable with both indices in bounds (they are set by
drag events over rendered items); out-of-bounds indices leave the list
unchanged in this model. -/
def handleSort (media : List MediaItem) (dragIdx overIdx : Nat) : List MediaItem :=
  match media[dragIdx]? with
  | none => media
  | some dragged => (media.eraseIdx dragIdx).insertIdx overIdx dragged

/-- The `MediaItem` built from one AI image payload in `handleConfirmText`:
`imageBytes.map(b => ({type: 'image', data: b, mimeType: 'image/jpeg'}))`. -/
def mkAiMediaItem (b : String) : MediaItem :=
  { type := MediaType.image, data := b, mimeType := "image/jpeg" }

/-- Outcome of one awaited backend call: either a resolved value or a
raised/rejected error. -/
inductive CallResult (α : Type) where
  | ok (val : α)
  | err (msg : String)

/-- `generateNewsImages` in `geminiService.ts`. The backend response is
`none` when `response.generatedImages` is absent (the function then throws
"No images generated") and `some imgs` otherwise; every error raised inside
the `try` block is caught and turned into `[]`. -/
def generateNewsImages (backendResponse : CallResult (Option (List String))) : List String :=
  match backendResponse with
  | CallResult.ok (some imgs) => imgs
  | CallResult.ok none => []
  | CallResult.err _ => []

/-- `searchPexels` in `pexelsService.ts`: the fetched items on success;
every error raised inside the `try` block is caught and turned into `[]`. -/
def searchPexels (backendResponse : CallResult (List MediaItem)) : List MediaItem :=
  match backendResponse with
  | CallResult.ok items => items
  | CallResult.err _ => []

/-- `const combinedMedia = [...aiMediaItems, ...pexelsItems]` in
`handleConfirmText`, with `aiMediaItems = imageBytes.map(b => ...)`. -/
def combinedMedia (imageBytes : List String) (pexelsItems : List MediaItem) : List MediaItem :=
  imageBytes.map mkAiMediaItem ++ pexelsItems

/-- The media list produced by the initial media population in
`handleConfirmText`, as a function of the two backend call outcomes awaited
by `Promise.all`. -/
def handleConfirmTextMedia (imgRes : CallResult (Option (List String)))
    (pexRes : CallResult (List MediaItem)) : List MediaItem :=
  combinedMedia (generateNewsImages imgRes) (searchPexels pexRes)

/- ### String helpers modelling JS string builtins -/

/-- Does `s` start with `pat` (character-exact)? -/
def charsStartWith : List Char → List Char → Bool
  | _, [] => true
  | [], _ :: _ => false
  | c :: cs, p :: ps => c == p && charsStartWith cs ps

/-- Does `s` contain `pat` as a contiguous substring? Modelled from the
host `String.prototype.includes`. -/
def charsContains (pat : List Char) : List Char → Bool
  | [] => charsStartWith [] pat
  | c :: cs => charsStartWith (c :: cs) pat || charsContains pat cs

/-- `s.includes(pat)` on Lean strings. -/
def strContains (s pat : String) : Bool :=
  charsContains pat.data s.data

/-- Modelled from the host `String.prototype.replace(pat, rep)` with a
plain-string pattern: replaces only the first occurrence of `pat`. -/
def charsReplaceFirst (pat rep : List Char) : List Char → List Char
  | [] => if pat.isEmpty then rep else []
  | c :: cs =>
    if charsStartWith (c :: cs) pat then rep ++ (c :: cs).drop pat.length
    else c :: charsReplaceFirst pat rep cs

/-- `s.replace(pat, rep)` (first occurrence only) on Lean strings. -/
def strReplaceFirst (s pat rep : String) : String :=
  String.mk (charsReplaceFirst pat.data rep.data s.data)

/-- Whitespace recognised by the host `String.prototype.trim` (and by the
`\s` regex class), restricted to the common ASCII whitespace characters. -/
def isJsWS (c : Char) : Bool :=
  [' ', '\t', '\n', '\r', '\u000B', '\u000C'].contains c

/-- Modelled from the host `String.prototype.trim`: drop leading and
trailing whitespace. -/
def jsTrimChars (s : List Char) : List Char :=
  ((s.dropWhile isJsWS).reverse.dropWhile isJsWS).reverse

/-- `s.trim()` on Lean strings. -/
def jsTrim (s : String) : String :=
  String.mk (jsTrimChars s.data)

/-- A character allowed inside a URL scheme after its first letter. -/
def isSchemeChar (c : Char) : Bool :=
  c.isAlpha || c.isDigit || c == '+' || c == '-' || c == '.'

/-- Modelled from the host `URL` constructor, restricted to what the code
needs: for a string of the shape `scheme://host...` (scheme starting with a
letter, non-empty host ending at `/`, `?`, `#` or `:`) it returns the
hostname; for anything else it returns `none`, standing for the `URL`
constructor throwing. -/
def urlHostnameChars : List Char → Option (List Char)
  | [] => none
  | c :: rest =>
    if c.isAlpha then
      match rest.dropWhile isSchemeChar with
      | ':' :: '/' :: '/' :: afterScheme =>
        let host := afterScheme.takeWhile
          (fun d => !(d == '/' || d == '?' || d == '#' || d == ':'))
        if host.isEmpty then none else some host
      | _ => none
    else none

/-- `new URL(uri).hostname`, as an `Option` (`none` models a throw). -/
def urlHostname (uri : String) : Option String :=
  (urlHostnameChars uri.data).map String.mk

/- ### SourceResolver (`generateNewsContent` dedup loop, `geminiService.ts`) -/

/-- A grounding candidate that survived the null filter: both `title` and
`uri` present. -/
structure RawSource where
  title : String
  uri : String
deriving DecidableEq

/-- `const isVertexRedirect = uri.includes('vertexaisearch')`. -/
def isVertexRedirect (uri : String) : Bool :=
  strContains uri "vertexaisearch"

/-- `const isGoogleSearch = uri.includes('google.com/search') || uri.includes('google.com/url')`. -/
def isGoogleSearch (uri : String) : Bool :=
  strContains uri "google.com/search" || strContains uri "google.com/url"

/-- The title normalization of one candidate in the dedup loop: trim the
title; for non-redirect URIs whose title looks like a URL (`http` / `www.`)
or is longer than 100 characters, fall back to the URI hostname with the
first `www.` removed; keep the trimmed title when URL parsing fails. -/
def normalizeTitle (title uri : String) : String :=
  let t := jsTrim title
  if isVertexRedirect uri then t
  else if strContains t "http" || strContains t "www." || t.length > 100 then
    match urlHostname uri with
    | some host => strReplaceFirst host "www." ""
    | none => t
  else t

/-- The `for (const source of rawSources)` dedup loop of
`generateNewsContent`: drop Google-search URLs, normalize titles, and
append a candidate only when neither its uri nor its normalized title has
been seen. -/
def resolveLoop : List RawSource → List String → List String → List NewsSource
  | [], _, _ => []
  | s :: rest, seenUris, seenTitles =>
    if isGoogleSearch s.uri then resolveLoop rest seenUris seenTitles
    else
      let t := normalizeTitle s.title s.uri
      if seenUris.contains s.uri || seenTitles.contains t then
        resolveLoop rest seenUris seenTitles
      else
        { title := t, uri := s.uri } :: resolveLoop rest (s.uri :: seenUris) (t :: seenTitles)

/-- The `uniqueSources` list of `generateNewsContent` before the
document-mode append. -/
def uniqueSources (candidates : List RawSource) : List NewsSource :=
  resolveLoop candidates [] []

/-- The full source-resolution step of `generateNewsContent`: the dedup
loop, followed in document mode (with a file selected, whose name is
`fileName`) by `uniqueSources.push({title: file.name, uri: '#'})`. -/
def resolveSources (candidates : List RawSource) (mode : InputMode)
    (fileName : Option String) : List NewsSource :=
  match mode, fileName with
  | InputMode.document, some name => uniqueSources candidates ++ [{ title := name, uri := "#" }]
  | _, _ => uniqueSources candidates

/- ### SourceResolver grouping (`groupedSources`, App component) -/

/-- The grouping key of one source in `groupedSources`:
`new URL(src.uri).hostname` with a leading `www.` stripped
(`hostname.replace(/^www\./, '')`), falling back to the raw uri string when
URL parsing throws. -/
def sourceDomain (uri : String) : String :=
  match urlHostname uri with
  | some h =>
    if charsStartWith h.data "www.".data then String.mk (h.data.drop 4) else h
  | none => uri

/-- `SourceGroup` as defined in the App component. -/
structure SourceGroup where
  domain : String
  occurrences : Nat
  links : List NewsSource
deriving DecidableEq

/-- One step of the `article.sources.reduce(...)` accumulation in
`groupedSources`: bump the existing group for the source's domain or append
a fresh group (JS object keys preserve insertion order, so the accumulator
is an insertion-ordered list). -/
def addSourceToGroups (acc : List SourceGroup) (src : NewsSource) : List SourceGroup :=
  let d := sourceDomain src.uri
  if acc.any (fun g => g.domain == d) then
    acc.map (fun g =>
      if g.domain == d then
        { g with occurrences := g.occurrences + 1,
                 links := g.links ++ [{ title := src.title, uri := src.uri }] }
      else g)
  else acc ++ [{ domain := d, occurrences := 1,
                 links := [{ title := src.title, uri := src.uri }] }]

/-- Stable insertion used to model the ES2019+ stable
`groups.sort((a, b) => b.occurrences - a.occurrences)`: an element is
placed before the first strictly smaller-count group, so equal counts keep
first-seen order. -/
def insertByOcc (a : SourceGroup) : List SourceGroup → List SourceGroup
  | [] => [a]
  | b :: bs => if b.occurrences ≤ a.occurrences then a :: b :: bs else b :: insertByOcc a bs

/-- Stable sort of the groups by descending occurrence count. -/
def sortByOccDesc : List SourceGroup → List SourceGroup
  | [] => []
  | a :: rest => insertByOcc a (sortByOccDesc rest)

/-- `groupedSources` from the App component: accumulate groups by domain in
first-seen order, then sort descending by occurrences (stable). -/
def groupedSources (sources : List NewsSource) : List SourceGroup :=
  sortByOccDesc (sources.foldl addSourceToGroups [])

/- ### Response parsing (`generateNewsContent`, `geminiService.ts`) -/

/-- A character matched by the `[A-Z_]` class of the section-delimiter
regex. -/
def isDelimChar (c : Char) : Bool :=
  ('A' ≤ c && c ≤ 'Z') || c == '_'

/-- If `s` starts with a full delimiter `|||[A-Z_]+|||`, return the input
after the delimiter. -/
def matchDelim : List Char → Option (List Char)
  | '|' :: '|' :: '|' :: rest =>
    let caps := rest.takeWhile isDelimChar
    if caps.isEmpty then none
    else
      match rest.drop caps.length with
      | '|' :: '|' :: '|' :: after => some after
      | _ => none
  | _ => none

/-- Fuelled scanner for `fullText.split(/\|\|\|[A-Z_]+\|\|\|/)`: cut the
input at each leftmost non-overlapping delimiter match. `acc` holds the
current segment reversed. -/
def splitDelimF : Nat → List Char → List Char → List (List Char)
  | _, acc, [] => [acc.reverse]
  | 0, acc, s => [acc.reverse ++ s]
  | n + 1, acc, c :: cs =>
    match matchDelim (c :: cs) with
    | some rest => acc.reverse :: splitDelimF n [] rest
    | none => splitDelimF n (c :: acc) cs

/-- `fullText.split(/\|\|\|[A-Z_]+\|\|\|/)` on Lean strings. -/
def splitDelim (s : String) : List String :=
  (splitDelimF s.length [] s.data).map String.mk

/-- Fuelled scanner for `metadataRaw.replace(/```json|```/g, '')`: the
alternation prefers the longer `json`-suffixed fence at each position. -/
def stripFencesF : Nat → List Char → List Char
  | _, [] => []
  | 0, s => s
  | n + 1, c :: cs =>
    if charsStartWith (c :: cs) "```json".data then stripFencesF n ((c :: cs).drop 7)
    else if charsStartWith (c :: cs) "```".data then stripFencesF n ((c :: cs).drop 3)
    else c :: stripFencesF n cs

/-- The fence-stripping `replace` on Lean strings. -/
def stripFences (s : String) : String :=
  String.mk (stripFencesF s.length s.data)

/-- `const metadataRaw = parts[4]?.trim() || "{}"` (braces written as
their character codes). -/
def metadataRawOf (fullText : String) : String :=
  match (splitDelim fullText).get? 4 with
  | some s =>
    let t := jsTrim s
    if t = "" then "\x7b\x7d" else t
  | none => "\x7b\x7d"

/-- JSON values as produced by the host `JSON.parse`; number literals are
kept as their source text, since no claim inspects numeric values. -/
inductive JsonVal where
  | null
  | bool (b : Bool)
  | num (lit : String)
  | str (s : String)
  | arr (items : List JsonVal)
  | obj (fields : List (String × JsonVal))

/-- JSON insignificant whitespace. -/
def isJsonWS (c : Char) : Bool :=
  [' ', '\t', '\n', '\r'].contains c

/-- Skip JSON whitespace. -/
def skipJsonWS (s : List Char) : List Char :=
  s.dropWhile isJsonWS

/-- Is `c` a hexadecimal digit? -/
def isHexDigit (c : Char) : Bool :=
  c.isDigit || (c ≥ 'a' && c ≤ 'f') || (c ≥ 'A' && c ≤ 'F')

/-- Value of a hexadecimal digit (only applied to hexadecimal digits). -/
def hexVal (c : Char) : Nat :=
  if c ≥ 'a' then 10 + (c.toNat - 'a'.toNat)
  else if c ≥ 'A' then 10 + (c.toNat - 'A'.toNat)
  else c.toNat - '0'.toNat

/-- Decode one escape character of a JSON string body. -/
def jsonEscapeChar : Char → Option Char
  | '"' => some '"'
  | '\\' => some '\\'
  | '/' => some '/'
  | 'b' => some (Char.ofNat 8)
  | 'f' => some (Char.ofNat 12)
  | 'n' => some '\n'
  | 'r' => some '\r'
  | 't' => some '\t'
  | _ => none

/-- Fuelled parser for a JSON string body (after the opening quote):
returns the decoded content and the input after the closing quote. -/
def parseJsonStringBody : Nat → List Char → Option (List Char × List Char)
  | 0, _ => none
  | _ + 1, [] => none
  | n + 1, c :: cs =>
    if c == '"' then some ([], cs)
    else if c == '\\' then
      match cs with
      | [] => none
      | e :: cs' =>
        if e == 'u' then
          match cs' with
          | h1 :: h2 :: h3 :: h4 :: cs'' =>
            if isHexDigit h1 && isHexDigit h2 && isHexDigit h3 && isHexDigit h4 then
              match parseJsonStringBody n cs'' with
              | some (body, rest) =>
                some (Char.ofNat
                  (((hexVal h1 * 16 + hexVal h2) * 16 + hexVal h3) * 16 + hexVal h4) :: body, rest)
              | none => none
            else none
          | _ => none
        else
          match jsonEscapeChar e with
          | some d =>
            match parseJsonStringBody n cs' with
            | some (body, rest) => some (d :: body, rest)
            | none => none
          | none => none
    else if c.toNat < 32 then none
    else
      match parseJsonStringBody n cs with
      | some (body, rest) => some (c :: body, rest)
      | none => none

/-- Parse the digits/fraction/exponent of a JSON number literal starting at
`s` (after an optional leading minus handled by the caller): returns the
literal characters and the rest. -/
def parseJsonNumberTail (s : List Char) : Option (List Char × List Char) :=
  let intDigits := s.takeWhile Char.isDigit
  if intDigits.isEmpty then none
  else if intDigits.length > 1 && intDigits.headD '0' == '0' then none
  else
    let afterInt := s.drop intDigits.length
    let (fracPart, afterFrac) :=
      match afterInt with
      | '.' :: t =>
        let ds := t.takeWhile Char.isDigit
        if ds.isEmpty then ([], afterInt) else ('.' :: ds, t.drop ds.length)
      | _ => ([], afterInt)
    if (match afterInt with | '.' :: t => (t.takeWhile Char.isDigit).isEmpty | _ => false) then none
    else
      match afterFrac with
      | e :: t =>
        if e == 'e' || e == 'E' then
          let (sign, t') := match t with
            | '+' :: t' => (['+'], t')
            | '-' :: t' => (['-'], t')
            | _ => ([], t)
          let ds := t'.takeWhile Char.isDigit
          if ds.isEmpty then none
          else some (intDigits ++ fracPart ++ e :: sign ++ ds, t'.drop ds.length)
        else some (intDigits ++ fracPart, afterFrac)
      | [] => some (intDigits ++ fracPart, afterFrac)

mutual

/-- Fuelled recursive-descent parser modelling the host `JSON.parse`
grammar (RFC 8259): returns the value and the unconsumed input. -/
def parseJsonValF : Nat → List Char → Option (JsonVal × List Char)
  | 0, _ => none
  | n + 1, s =>
    match skipJsonWS s with
    | [] => none
    | c :: cs =>
      if c == 'n' then
        match cs with
        | 'u' :: 'l' :: 'l' :: rest => some (JsonVal.null, rest)
        | _ => none
      else if c == 't' then
        match cs with
        | 'r' :: 'u' :: 'e' :: rest => some (JsonVal.bool true, rest)
        | _ => none
      else if c == 'f' then
        match cs with
        | 'a' :: 'l' :: 's' :: 'e' :: rest => some (JsonVal.bool false, rest)
        | _ => none
      else if c == '"' then
        match parseJsonStringBody (cs.length + 1) cs with
        | some (body, rest) => some (JsonVal.str (String.mk body), rest)
        | none => none
      else if c == '-' then
        match parseJsonNumberTail cs with
        | some (lit, rest) => some (JsonVal.num (String.mk ('-' :: lit)), rest)
        | none => none
      else if c.isDigit then
        match parseJsonNumberTail (c :: cs) with
        | some (lit, rest) => some (JsonVal.num (String.mk lit), rest)
        | none => none
      else if c == '[' then
        match skipJsonWS cs with
        | ']' :: rest => some (JsonVal.arr [], rest)
        | _ => parseJsonArrItemsF n cs []
      else if c == '\x7b' then
        match skipJsonWS cs with
        | '\x7d' :: rest => some (JsonVal.obj [], rest)
        | _ => parseJsonObjItemsF n cs []
      else none

/-- Parse the remaining items of a non-empty JSON array (`acc` reversed). -/
def parseJsonArrItemsF : Nat → List Char → List JsonVal → Option (JsonVal × List Char)
  | 0, _, _ => none
  | n + 1, s, acc =>
    match parseJsonValF n s with
    | none => none
    | some (v, rest) =>
      match skipJsonWS rest with
      | ',' :: rest' => parseJsonArrItemsF n rest' (v :: acc)
      | ']' :: rest' => some (JsonVal.arr (v :: acc).reverse, rest')
      | _ => none

/-- Parse the remaining members of a non-empty JSON object (`acc`
reversed). -/
def parseJsonObjItemsF : Nat → List Char → List (String × JsonVal) →
    Option (JsonVal × List Char)
  | 0, _, _ => none
  | n + 1, s, acc =>
    match skipJsonWS s with
    | '"' :: cs =>
      match parseJsonStringBody (cs.length + 1) cs with
      | none => none
      | some (key, rest) =>
        match skipJsonWS rest with
        | ':' :: rest' =>
          match parseJsonValF n rest' with
          | none => none
          | some (v, rest'') =>
            match skipJsonWS rest'' with
            | ',' :: rest3 => parseJsonObjItemsF n rest3 ((String.mk key, v) :: acc)
            | '\x7d' :: rest3 => some (JsonVal.obj ((String.mk key, v) :: acc).reverse, rest3)
            | _ => none
        | _ => none
    | _ => none

end

/-- Modelled from the host `JSON.parse`: `some` on a full valid JSON text,
`none` models the `SyntaxError` throw caught by `generateNewsContent`. -/
def jsonParse (s : String) : Option JsonVal :=
  match parseJsonValF (s.length + 1) s.data with
  | some (v, rest) => if (skipJsonWS rest).isEmpty then some v else none
  | none => none

/-- Lookup of a JS object property on parsed JSON: with duplicate keys the
last occurrence wins, as in `JSON.parse`. -/
def jsLookup (key : String) (fields : List (String × JsonVal)) : Option JsonVal :=
  (fields.reverse.find? (fun f => f.1 == key)).map (fun f => f.2)

/-- Is the mantissa of a JSON number literal zero (so the JS number is
falsy)? -/
def isZeroNumLit (lit : String) : Bool :=
  let noSign := match lit.data with
    | '-' :: t => t
    | t => t
  let mantissa := noSign.takeWhile (fun c => c != 'e' && c != 'E')
  mantissa.all (fun c => c == '0' || c == '.')

/-- JS truthiness of a parsed JSON value. -/
def jsTruthy : JsonVal → Bool
  | JsonVal.null => false
  | JsonVal.bool b => b
  | JsonVal.num lit => !isZeroNumLit lit
  | JsonVal.str s => !s.isEmpty
  | JsonVal.arr _ => true
  | JsonVal.obj _ => true

/-- `keywords = metadata.keywords || []` on the parsed metadata. In this
typed model a truthy non-array value and non-string array elements are
dropped, since the TS result is consumed as `string[]`. -/
def keywordsOf (j : JsonVal) : List String :=
  match j with
  | JsonVal.obj fields =>
    match jsLookup "keywords" fields with
    | some v =>
      if jsTruthy v then
        match v with
        | JsonVal.arr items =>
          items.filterMap (fun it =>
            match it with
            | JsonVal.str s => some s
            | _ => none)
        | _ => []
      else []
    | none => []
  | _ => []

/-- `metaDescription = metadata.metaDescription || ""` on the parsed
metadata; non-string values collapse to `""` in this typed model. -/
def metaDescriptionOf (j : JsonVal) : String :=
  match j with
  | JsonVal.obj fields =>
    match jsLookup "metaDescription" fields with
    | some (JsonVal.str s) => s
    | _ => ""
  | _ => ""

/-- The metadata part of `generateNewsContent`'s result: the `try` block
around `JSON.parse` leaves `keywords = []` and `metaDescription = ""` when
parsing throws. -/
def parsedMetaFields (fullText : String) : List String × String :=
  match jsonParse (stripFences (metadataRawOf fullText)) with
  | none => ([], "")
  | some j => (keywordsOf j, metaDescriptionOf j)

/- ### ResponseNormalizer (`normalizeToMarkdown`, `geminiService.ts`)

Each `text.replace(regex, ...)` of `normalizeToMarkdown` is embedded as a
left-to-right fuelled scanner: at every position a step function either
matches (returning the replacement and the input after the match, which is
not rescanned, as with `String.prototype.replace`) or the character is
copied. -/

/-- A single match attempt at the head of the input: `some (rep, rest)`
replaces the matched head with `rep` and continues at `rest`. -/
abbrev Step : Type := List Char → Option (List Char × List Char)

/-- The fuelled global-replace scanner. Every step function below consumes
at least one character per match, so fuel `s.length` always suffices. -/
def rewriteF (step : Step) : Nat → List Char → List Char
  | _, [] => []
  | 0, s => s
  | n + 1, c :: cs =>
    match step (c :: cs) with
    | some (rep, rest) => rep ++ rewriteF step n rest
    | none => c :: rewriteF step n cs

/-- Run one global replace over the whole input. -/
def runStep (step : Step) (s : List Char) : List Char :=
  rewriteF step s.length s

/-- Case-insensitive character comparison against a lowercase target (the
`i` regex flag). -/
def ciEq (c target : Char) : Bool :=
  c.toLower == target

/-- Case-insensitive "starts with" against a lowercase pattern. -/
def ciStartsWith : List Char → List Char → Bool
  | _, [] => true
  | [], _ :: _ => false
  | c :: cs, p :: ps => ciEq c p && ciStartsWith cs ps

/-- Lazy search (`([\s\S]*?)` up to a closing tag): find the earliest
position where `closer` matches, returning the inner text before it and
the input after the closing tag. -/
def findClose (closer : List Char → Option (List Char)) :
    Nat → List Char → Option (List Char × List Char)
  | 0, _ => none
  | _ + 1, [] => none
  | n + 1, c :: cs =>
    match closer (c :: cs) with
    | some rest => some ([], rest)
    | none =>
      match findClose closer n cs with
      | some (inner, rest) => some (c :: inner, rest)
      | none => none

/-- Step 0: `text.replace(/\r\n/g, "\n")`. -/
def stepCRLF : Step := fun s =>
  match s with
  | '\r' :: '\n' :: rest => some (['\n'], rest)
  | _ => none

/-- The closing `</hN>` tag with the back-referenced depth digit `d`. -/
def headingCloser (d : Char) : List Char → Option (List Char) := fun t =>
  match t with
  | '<' :: sl :: hh :: dd :: '>' :: r =>
    if sl == '/' && ciEq hh 'h' && dd == d then some r else none
  | _ => none

/-- Step 1: `/<h([1-6])[^>]*>([\s\S]*?)<\/h\1>/gi` replaced by
Markdown hashes of the matching depth followed by the trimmed inner text. -/
def stepHeading : Step := fun s =>
  match s with
  | '<' :: c :: d :: rest =>
    if ciEq c 'h' && '1' ≤ d && d ≤ '6' then
      let attrs := rest.takeWhile (fun x => x != '>')
      match rest.drop attrs.length with
      | '>' :: afterOpen =>
        match findClose (headingCloser d) afterOpen.length afterOpen with
        | some (inner, rest') =>
          some (List.replicate (d.toNat - '0'.toNat) '#' ++ ' ' :: jsTrimChars inner, rest')
        | none => none
      | _ => none
    else none
  | _ => none

/-- Step 2: `/<br\s*\/?>(\s*)/gi` replaced by a newline (the greedy
trailing whitespace group is part of the match). -/
def stepBr : Step := fun s =>
  match s with
  | '<' :: c1 :: c2 :: rest =>
    if ciEq c1 'b' && ciEq c2 'r' then
      match rest.dropWhile isJsWS with
      | '/' :: '>' :: after => some (['\n'], after.dropWhile isJsWS)
      | '>' :: after => some (['\n'], after.dropWhile isJsWS)
      | _ => none
    else none
  | _ => none

/-- Step 3a: `/<p[^>]*>/gi` removed. -/
def stepPOpen : Step := fun s =>
  match s with
  | '<' :: c :: rest =>
    if ciEq c 'p' then
      let attrs := rest.takeWhile (fun x => x != '>')
      match rest.drop attrs.length with
      | '>' :: after => some ([], after)
      | _ => none
    else none
  | _ => none

/-- Step 3b: `/<\/p>/gi` replaced by a blank line. -/
def stepPClose : Step := fun s =>
  match s with
  | '<' :: '/' :: c :: '>' :: rest =>
    if ciEq c 'p' then some (['\n', '\n'], rest) else none
  | _ => none

/-- First tag name of `tags` that case-insensitively starts `s` (regex
alternation order); returns the input after the tag name. -/
def tryTags (s : List Char) : List (List Char) → Option (List Char)
  | [] => none
  | t :: ts => if ciStartsWith s t then some (s.drop t.length) else tryTags s ts

/-- Closing tag `<\/(tag1|tag2)>` (no attributes) for a tag pair. -/
def pairCloser (tags : List (List Char)) : List Char → Option (List Char) := fun t =>
  match t with
  | '<' :: '/' :: u =>
    match tryTags u tags with
    | some v =>
      match v with
      | '>' :: r => some r
      | _ => none
    | none => none
  | _ => none

/-- Generic `/<(t1|t2)[^>]*>([\s\S]*?)<\/(t1|t2)>/gi` step with a
replacement built from the inner text. -/
def stepTagPair (tags : List (List Char)) (mkRep : List Char → List Char) : Step := fun s =>
  match s with
  | '<' :: rest =>
    match tryTags rest tags with
    | some afterTag =>
      let attrs := afterTag.takeWhile (fun x => x != '>')
      match afterTag.drop attrs.length with
      | '>' :: afterOpen =>
        match findClose (pairCloser tags) afterOpen.length afterOpen with
        | some (inner, rest') => some (mkRep inner, rest')
        | none => none
      | _ => none
    | none => none
  | _ => none

/-- Step 4: `<strong>`/`<b>` to `**text**` (trimmed inner). -/
def stepBold : Step :=
  stepTagPair ["strong".data, "b".data]
    (fun inner => '*' :: '*' :: (jsTrimChars inner ++ ['*', '*']))

/-- Step 5: `<em>`/`<i>` to `*text*` (trimmed inner). -/
def stepItalic : Step :=
  stepTagPair ["em".data, "i".data]
    (fun inner => '*' :: (jsTrimChars inner ++ ['*']))

/-- Closing `</a>` tag. -/
def anchorCloser : List Char → Option (List Char) := fun t =>
  match t with
  | '<' :: '/' :: c :: '>' :: r => if ciEq c 'a' then some r else none
  | _ => none

/-- Attempt the anchor pattern with the `[^>]*` before `href=` ending at
offset `i` of the text after `<a`: parse `href=["']([^"']+)["'][^>]*>`,
then the lazy inner text up to `</a>`. Returns (href, inner, rest). -/
def tryHrefParse (rest : List Char) (i : Nat) :
    Option (List Char × List Char × List Char) :=
  if ciStartsWith (rest.drop i) "href=".data then
    match rest.drop (i + 5) with
    | q :: vrest =>
      if q == '"' || q == '\'' then
        if (vrest.takeWhile (fun d => d != '"' && d != '\'')).isEmpty then none
        else
          match vrest.drop (vrest.takeWhile (fun d => d != '"' && d != '\'')).length with
          | _ :: afterV =>
            match afterV.drop (afterV.takeWhile (fun d => d != '>')).length with
            | '>' :: afterOpen =>
              match findClose anchorCloser afterOpen.length afterOpen with
              | some (inner, after) =>
                some (vrest.takeWhile (fun d => d != '"' && d != '\''), inner, after)
              | none => none
            | _ => none
          | [] => none
      else none
    | [] => none
  else none

/-- Greedy backtracking of the `[^>]*` before `href=`: try the largest
offset first, as the regex engine does. -/
def tryAnchorIdx (rest : List Char) : Nat → Option (List Char × List Char × List Char)
  | 0 => tryHrefParse rest 0
  | i + 1 =>
    match tryHrefParse rest (i + 1) with
    | some r => some r
    | none => tryAnchorIdx rest i

/-- Step 6: `/<a[^>]*href=["']([^"']+)["'][^>]*>([\s\S]*?)<\/a>/gi`
replaced by `[label](href)`, where the label falls back to the href when
the trimmed inner text is empty. -/
def stepAnchor : Step := fun s =>
  match s with
  | '<' :: c :: rest =>
    if ciEq c 'a' then
      let run := rest.takeWhile (fun x => x != '>')
      match tryAnchorIdx rest run.length with
      | some (href, inner, after) =>
        let label := jsTrimChars inner
        let lab := if label.isEmpty then href else label
        some ('[' :: (lab ++ ']' :: '(' :: (href ++ [')'])), after)
      | none => none
    else none
  | _ => none

/-- Split at every newline (the `/\n/` split of the blockquote callback). -/
def splitOnNl : List Char → List (List Char)
  | [] => [[]]
  | c :: cs =>
    if c = '\n' then [] :: splitOnNl cs
    else
      match splitOnNl cs with
      | h :: t => (c :: h) :: t
      | [] => [[c]]

/-- `lines.join("\n")`. -/
def joinNl : List (List Char) → List Char
  | [] => []
  | [l] => l
  | l :: ls => l ++ '\n' :: joinNl ls

/-- The blockquote callback: normalize CRLF inside the inner text, then
prefix each non-blank trimmed line with `> ` and join with newlines. -/
def blockquoteRep (inner : List Char) : List Char :=
  joinNl
    ((splitOnNl (runStep stepCRLF inner)).map (fun line =>
      let t := jsTrimChars line
      if t.isEmpty then [] else '>' :: ' ' :: t))

/-- Closing `</blockquote>` tag. -/
def blockquoteCloser : List Char → Option (List Char) := fun t =>
  if ciStartsWith t "</blockquote>".data then some (t.drop 13) else none

/-- Step 7: `/<blockquote[^>]*>([\s\S]*?)<\/blockquote>/gi` replaced by
`> `-prefixed lines. -/
def stepBlockquote : Step := fun s =>
  match s with
  | '<' :: rest =>
    if ciStartsWith rest "blockquote".data then
      let afterTag := rest.drop 10
      let attrs := afterTag.takeWhile (fun x => x != '>')
      match afterTag.drop attrs.length with
      | '>' :: afterOpen =>
        match findClose blockquoteCloser afterOpen.length afterOpen with
        | some (inner, rest') => some (blockquoteRep inner, rest')
        | none => none
      | _ => none
    else none
  | _ => none

/-- Closing `</li>` tag. -/
def liCloser : List Char → Option (List Char) := fun t =>
  if ciStartsWith t "</li>".data then some (t.drop 5) else none

/-- Step 8a: `/<li[^>]*>([\s\S]*?)<\/li>/gi` replaced by `- item\n`, or
nothing for a blank item. -/
def stepLi : Step := fun s =>
  match s with
  | '<' :: rest =>
    if ciStartsWith rest "li".data then
      let afterTag := rest.drop 2
      let attrs := afterTag.takeWhile (fun x => x != '>')
      match afterTag.drop attrs.length with
      | '>' :: afterOpen =>
        match findClose liCloser afterOpen.length afterOpen with
        | some (inner, rest') =>
          let content := jsTrimChars inner
          some (if content.isEmpty then [] else '-' :: ' ' :: (content ++ ['\n']), rest')
        | none => none
      | _ => none
    else none
  | _ => none

/-- The `(ul|ol)[^>]*>` tail shared by the opening and closing list tags. -/
def ulolTail (t : List Char) : Option (List Char) :=
  match tryTags t ["ul".data, "ol".data] with
  | some afterTag =>
    let attrs := afterTag.takeWhile (fun x => x != '>')
    match afterTag.drop attrs.length with
    | '>' :: after => some after
    | _ => none
  | none => none

/-- Step 8b: `/<\/?(ul|ol)[^>]*>/gi` removed. -/
def stepUlOl : Step := fun s =>
  match s with
  | '<' :: rest =>
    match rest with
    | '/' :: t =>
      match ulolTail t with
      | some after => some ([], after)
      | none =>
        match ulolTail rest with
        | some after => some ([], after)
        | none => none
    | t =>
      match ulolTail t with
      | some after => some ([], after)
      | none => none
  | _ => none

/-- Step 9: `/<\/?[^>]+>/g` removed: a `<`, a non-empty run of non-`>`
characters, then `>`. -/
def stepStrip : Step := fun s =>
  match s with
  | '<' :: rest =>
    let run := rest.takeWhile (fun x => x != '>')
    if run.isEmpty then none
    else
      match rest.drop run.length with
      | '>' :: after => some ([], after)
      | _ => none
  | _ => none

/-- Step 10: `/\n{3,}/g` replaced by exactly two newlines (the greedy
match takes the maximal newline run). -/
def stepNl : Step := fun s =>
  match s with
  | '\n' :: '\n' :: '\n' :: _ =>
    let run := s.takeWhile (fun x => x == '\n')
    some (['\n', '\n'], s.drop run.length)
  | _ => none

/-- `normalizeToMarkdown` from `geminiService.ts`: the empty-input guard,
the ten replacement passes in source order, and the final `trim`. -/
def normalizeToMarkdown (input : String) : String :=
  if input.isEmpty then ""
  else
    let t0 := runStep stepCRLF input.data
    let t1 := runStep stepHeading t0
    let t2 := runStep stepBr t1
    let t3 := runStep stepPOpen t2
    let t4 := runStep stepPClose t3
    let t5 := runStep stepBold t4
    let t6 := runStep stepItalic t5
    let t7 := runStep stepAnchor t6
    let t8 := runStep stepBlockquote t7
    let t9 := runStep stepLi t8
    let t10 := runStep stepUlOl t9
    let t11 := runStep stepStrip t10
    let t12 := runStep stepNl t11
    String.mk (jsTrimChars t12)

/- ### Tag predicates used to state the no-HTML invariant -/

/-- Does the text after a `<` begin an HTML-tag-shaped substring: a
non-`>` character followed eventually by `>`? -/
def startsTagTail : List Char → Bool
  | [] => false
  | d :: ds => d != '>' && ds.contains '>'

/-- Does `s` contain a substring of the shape `<`, one or more non-`>`
characters, `>`? -/
def hasTag : List Char → Bool
  | [] => false
  | c :: cs => (c == '<' && startsTagTail cs) || hasTag cs

/-- Does `s` contain three consecutive newlines? -/
def has3Nl : List Char → Bool
  | c1 :: c2 :: c3 :: rest => (c1 == '\n' && c2 == '\n' && c3 == '\n') || has3Nl (c2 :: c3 :: rest)
  | _ => false

/-- Number of leading newlines. -/
def leadingNl (s : List Char) : Nat :=
  (s.takeWhile (fun c => c == '\n')).length

/- ### Helper lemmas for the history store and media handlers -/

lemma appendHistory_take (a : NewsArticle) (l : List NewsArticle) :
    appendHistory a (l.take 10) = (a :: l).take 10 := by
  simp [appendHistory, List.take_succ_cons, List.take_take]

lemma foldl_appendHistory (l : List NewsArticle) :
    ∀ h : List NewsArticle,
      l.foldl (fun h a => appendHistory a h) (h.take 10) = (l.reverse ++ h).take 10 := by
  induction l with
  | nil => intro h; simp
  | cons c l ih =>
    intro h
    have step : appendHistory c (h.take 10) = ((c :: h).take 10) := appendHistory_take c h
    calc (c :: l).foldl (fun h a => appendHistory a h) (h.take 10)
        = l.foldl (fun h a => appendHistory a h) ((c :: h).take 10) := by
          simp [List.foldl_cons, step]
      _ = (l.reverse ++ (c :: h)).take 10 := ih (c :: h)
      _ = ((c :: l).reverse ++ h).take 10 := by simp

lemma runAppends_eq (l : List NewsArticle) : runAppends l = l.reverse.take 10 := by
  have h := foldl_appendHistory l []
  simpa [runAppends] using h

lemma insertIdx_perm (x : MediaItem) :
    ∀ (j : Nat) (m : List MediaItem), j ≤ m.length → (m.insertIdx j x).Perm (x :: m) := by
  intro j
  induction j with
  | zero => intro m _; simp [List.insertIdx_zero]
  | succ j ih =>
    intro m hm
    match m with
    | [] => simp at hm
    | y :: ys =>
      have h' : j ≤ ys.length := by simpa using hm
      rw [List.insertIdx_succ_cons]
      exact ((ih ys h').cons y).trans (List.Perm.swap x y ys)

/- ### C6 -/

/-- C6: the history archive is bounded and ordered: each finalization
prepends the article and truncates to 10, so after more than 10 successive
appends the store holds exactly 10 articles, most recent first (the oldest
evicted). -/
theorem c6_history_bounded (articles : List NewsArticle) (h : 10 < articles.length) :
    (runAppends articles).length = 10 ∧ runAppends articles = articles.reverse.take 10 := by
  refine ⟨?_, runAppends_eq articles⟩
  rw [runAppends_eq]
  simp only [List.length_take, List.length_reverse]
  omega

/-- Article used to build concrete witness inputs. -/
def sampleArticle (n : Nat) : NewsArticle :=
  { id := toString n, createdAt := n, topic := "t", title := "T", content := "c",
    sources := [], rawSources := none, media := [], audioUrl := none,
    language := Language.es, keywords := [], metaDescription := "", imagePrompt := "p",
    chartData := none }

/-- Witness for C6 at a concrete run of 11 appends. -/
theorem c6_history_bounded_witness :
    (runAppends ((List.range 11).map sampleArticle)).length = 10 :=
  (c6_history_bounded ((List.range 11).map sampleArticle) (by simp)).1

/- ### C7 -/

/-- C7: archiving on COMPLETE persists the history record with `audioUrl`
stripped while every other field is unchanged, and the audio binary is
stored separately keyed by the article id. -/
theorem c7_audio_stripped (a : NewsArticle) (b : AudioBlob) (db : AudioStore) :
    (stripAudioForHistory a).audioUrl = none ∧
    (stripAudioForHistory a).id = a.id ∧
    (stripAudioForHistory a).title = a.title ∧
    (stripAudioForHistory a).content = a.content ∧
    (stripAudioForHistory a).sources = a.sources ∧
    (stripAudioForHistory a).media = a.media ∧
    (stripAudioForHistory a).keywords = a.keywords ∧
    (stripAudioForHistory a).metaDescription = a.metaDescription ∧
    (stripAudioForHistory a).language = a.language ∧
    (stripAudioForHistory a).topic = a.topic ∧
    (stripAudioForHistory a).createdAt = a.createdAt ∧
    (stripAudioForHistory a).imagePrompt = a.imagePrompt ∧
    (∀ x ∈ historyToSave [a], x.audioUrl = none) ∧
    getAudioFromDB a.id (saveAudioToDB a.id b db) = some b := by
  refine ⟨rfl, rfl, rfl, rfl, rfl, rfl, rfl, rfl, rfl, rfl, rfl, rfl, ?_, ?_⟩
  · intro x hx
    simp only [historyToSave, List.map_cons, List.map_nil, List.mem_singleton] at hx
    subst hx; rfl
  · simp [getAudioFromDB, saveAudioToDB, List.find?]

/- ### C9 -/

/-- C9: for a media list and in-bounds drag indices, the reorder handler
returns a permutation of the original list (no item duplicated or lost)
with unchanged length. -/
theorem c9_reorder_perm (l : List MediaItem) (i j : Nat)
    (hi : i < l.length) (hj : j < l.length) :
    (handleSort l i j).Perm l ∧ (handleSort l i j).length = l.length := by
  have hget : l[i]? = some l[i] := List.getElem?_eq_getElem hi
  have hsort : handleSort l i j = (l.eraseIdx i).insertIdx j l[i] := by
    simp [handleSort, hget]
  have hlenErase : (l.eraseIdx i).length + 1 = l.length := List.length_eraseIdx_add_one hi
  have hjle : j ≤ (l.eraseIdx i).length := by omega
  have hperm1 : ((l.eraseIdx i).insertIdx j l[i]).Perm (l[i] :: l.eraseIdx i) :=
    insertIdx_perm l[i] j (l.eraseIdx i) hjle
  have hdecomp : l = l.take i ++ l[i] :: l.drop (i + 1) := by
    conv_lhs => rw [← List.take_append_drop i l]
    rw [List.drop_eq_getElem_cons hi]
  have herase : l.eraseIdx i = l.take i ++ l.drop (i + 1) :=
    List.eraseIdx_eq_take_drop_succ l i
  have hperm2 : (l[i] :: l.eraseIdx i).Perm l := by
    rw [herase]
    conv_rhs => rw [hdecomp]
    exact List.perm_middle.symm
  have hperm : (handleSort l i j).Perm l := by
    rw [hsort]; exact hperm1.trans hperm2
  exact ⟨hperm, hperm.length_eq⟩

/-- Witness for C9 at a concrete two-element media list. -/
theorem c9_reorder_perm_witness :
    (handleSort [mkAiMediaItem "a", mkAiMediaItem "b"] 0 1).Perm
      [mkAiMediaItem "a", mkAiMediaItem "b"] :=
  (c9_reorder_perm [mkAiMediaItem "a", mkAiMediaItem "b"] 0 1 (by decide) (by decide)).1

/- ### C10 -/

/-- C10: on successful initial media population the media list is exactly
the AI-generated images (each tagged `image` with mime type `image/jpeg`,
in backend order) followed by the stock items, so when at least one AI
image was returned the first media item (the thumbnail) is an AI image. -/
theorem c10_media_order (bytes : List String) (items : List MediaItem)
    (h : bytes ≠ []) :
    (combinedMedia bytes items).take bytes.length = bytes.map mkAiMediaItem ∧
    (combinedMedia bytes items).drop bytes.length = items ∧
    (∀ m ∈ bytes.map mkAiMediaItem, m.type = MediaType.image ∧ m.mimeType = "image/jpeg") ∧
    (combinedMedia bytes items).head? = (bytes.head?).map mkAiMediaItem ∧
    (combinedMedia bytes items).head? = some (mkAiMediaItem (bytes.head h)) := by
  refine ⟨?_, ?_, ?_, ?_, ?_⟩
  · have : bytes.length = (bytes.map mkAiMediaItem).length := (List.length_map _ _).symm
    rw [combinedMedia, this, List.take_left]
  · have : bytes.length = (bytes.map mkAiMediaItem).length := (List.length_map _ _).symm
    rw [combinedMedia, this, List.drop_left]
  · intro m hm
    rcases List.mem_map.mp hm with ⟨b, _, rfl⟩
    exact ⟨rfl, rfl⟩
  · cases bytes with
    | nil => simp at h
    | cons b bs => simp [combinedMedia]
  · cases bytes with
    | nil => simp at h
    | cons b bs => simp [combinedMedia]

/-- Witness for C10 at a concrete backend result. -/
theorem c10_media_order_witness :
    (combinedMedia ["img1"] [mkAiMediaItem "stock"]).head? =
      some (mkAiMediaItem (("img1" :: []).head (by decide))) :=
  (c10_media_order ["img1"] [mkAiMediaItem "stock"] (by decide)).2.2.2.2

/- ### C8 -/

/-- C8: in the initial media population, a failure of either the AI image
call or the stock search call is caught inside that call and contributes an
empty list, so the combined media is the concatenation of whichever calls
succeeded and the media stage always produces a list (never aborts). The
two calls are issued via one `Promise.all`; their results merge as below
regardless of which of them failed. -/
theorem c8_partial_failure (imgRes : CallResult (Option (List String)))
    (pexRes : CallResult (List MediaItem)) :
    handleConfirmTextMedia imgRes pexRes =
      (generateNewsImages imgRes).map mkAiMediaItem ++ searchPexels pexRes ∧
    (∀ e, generateNewsImages (CallResult.err e) = []) ∧
    (∀ e, searchPexels (CallResult.err e) = []) ∧
    (∀ e, handleConfirmTextMedia (CallResult.err e) pexRes = searchPexels pexRes) ∧
    (∀ e, handleConfirmTextMedia imgRes (CallResult.err e) =
      (generateNewsImages imgRes).map mkAiMediaItem) ∧
    (∀ e e', handleConfirmTextMedia (CallResult.err e) (CallResult.err e') = []) := by
  refine ⟨rfl, fun e => rfl, fun e => rfl, fun e => ?_, fun e => ?_, fun e e' => rfl⟩
  · simp [handleConfirmTextMedia, combinedMedia, generateNewsImages]
  · simp [handleConfirmTextMedia, combinedMedia, searchPexels]

/- ### C2 -/

lemma resolveLoop_spec : ∀ (cs : List RawSource) (seenU seenT : List String),
    ((resolveLoop cs seenU seenT).map NewsSource.uri).Nodup ∧
    ((resolveLoop cs seenU seenT).map NewsSource.title).Nodup ∧
    (∀ u ∈ (resolveLoop cs seenU seenT).map NewsSource.uri, u ∉ seenU) ∧
    (∀ t ∈ (resolveLoop cs seenU seenT).map NewsSource.title, t ∉ seenT) ∧
    (resolveLoop cs seenU seenT).length ≤ cs.length := by
  intro cs
  induction cs with
  | nil => intro seenU seenT; simp [resolveLoop]
  | cons s rest ih =>
    intro seenU seenT
    cases hg : isGoogleSearch s.uri with
    | true =>
      have heq : resolveLoop (s :: rest) seenU seenT = resolveLoop rest seenU seenT := by
        simp [resolveLoop, hg]
      rw [heq]
      obtain ⟨h1, h2, h3, h4, h5⟩ := ih seenU seenT
      exact ⟨h1, h2, h3, h4, Nat.le_succ_of_le h5⟩
    | false =>
      cases hseen :
          (seenU.contains s.uri || seenT.contains (normalizeTitle s.title s.uri)) with
      | true =>
        have hmem : s.uri ∈ seenU ∨ normalizeTitle s.title s.uri ∈ seenT := by
          simpa using hseen
        have heq : resolveLoop (s :: rest) seenU seenT = resolveLoop rest seenU seenT := by
          simp only [resolveLoop, hg]
          simp only [Bool.false_eq_true, if_false]
          rw [if_pos]
          simpa using hmem
        rw [heq]
        obtain ⟨h1, h2, h3, h4, h5⟩ := ih seenU seenT
        exact ⟨h1, h2, h3, h4, Nat.le_succ_of_le h5⟩
      | false =>
        have hor := Bool.or_eq_false_iff.mp hseen
        have hnotU : s.uri ∉ seenU := by
          have := hor.1
          simpa using this
        have hnotT : normalizeTitle s.title s.uri ∉ seenT := by
          have := hor.2
          simpa using this
        have heq : resolveLoop (s :: rest) seenU seenT =
            { title := normalizeTitle s.title s.uri, uri := s.uri } ::
              resolveLoop rest (s.uri :: seenU) (normalizeTitle s.title s.uri :: seenT) := by
          simp only [resolveLoop, hg]
          simp only [Bool.false_eq_true, if_false]
          rw [if_neg]
          simpa using hseen
        obtain ⟨h1, h2, h3, h4, h5⟩ := ih (s.uri :: seenU) (normalizeTitle s.title s.uri :: seenT)
        rw [heq]
        refine ⟨?_, ?_, ?_, ?_, ?_⟩
        · rw [List.map_cons, List.nodup_cons]
          exact ⟨fun hmem => (h3 s.uri hmem) (List.mem_cons_self _ _), h1⟩
        · rw [List.map_cons, List.nodup_cons]
          exact ⟨fun hmem => (h4 _ hmem) (List.mem_cons_self _ _), h2⟩
        · intro u hu
          rw [List.map_cons] at hu
          rcases List.mem_cons.mp hu with h | h
          · subst h; exact hnotU
          · exact fun hin => (h3 u h) (List.mem_cons_of_mem _ hin)
        · intro t ht
          rw [List.map_cons] at ht
          rcases List.mem_cons.mp ht with h | h
          · subst h; exact hnotT
          · exact fun hin => (h4 t h) (List.mem_cons_of_mem _ hin)
        · simpa using Nat.succ_le_succ h5

/-- C2, counterexample to the claim as stated: in document mode the
synthetic document entry is appended without any dedup check, so a
candidate whose normalized title equals the file name yields two entries
with the same display title. -/
theorem c2_dedup_counterexample :
    resolveSources [{ title := "Doc", uri := "https://a.com/x" }] InputMode.document (some "Doc") =
      [{ title := "Doc", uri := "https://a.com/x" }, { title := "Doc", uri := "#" }] ∧
    ¬ ((resolveSources [{ title := "Doc", uri := "https://a.com/x" }] InputMode.document
        (some "Doc")).map NewsSource.title).Nodup := by
  constructor
  · rfl
  · decide

/-- C2, amended: the dedup loop output (all of the result in topic mode,
and everything before the synthetic document entry in document mode) has
pairwise-distinct uris and pairwise-distinct normalized titles, and the
length bound holds (at most the candidate count, plus one in document
mode); the document-mode synthetic entry is appended without dedup checks. -/
theorem c2_dedup_amended (candidates : List RawSource) (fileName : Option String)
    (name : String) (mode : InputMode) :
    ((uniqueSources candidates).map NewsSource.uri).Nodup ∧
    ((uniqueSources candidates).map NewsSource.title).Nodup ∧
    (uniqueSources candidates).length ≤ candidates.length ∧
    resolveSources candidates InputMode.topic fileName = uniqueSources candidates ∧
    resolveSources candidates InputMode.document (some name) =
      uniqueSources candidates ++ [{ title := name, uri := "#" }] ∧
    (resolveSources candidates mode fileName).length ≤ candidates.length + 1 := by
  obtain ⟨h1, h2, _, _, h5⟩ := resolveLoop_spec candidates [] []
  have h5' : (uniqueSources candidates).length ≤ candidates.length := h5
  refine ⟨h1, h2, h5', rfl, rfl, ?_⟩
  cases mode with
  | topic =>
    have h : resolveSources candidates InputMode.topic fileName = uniqueSources candidates := rfl
    rw [h]; omega
  | document =>
    cases fileName with
    | none =>
      have h : resolveSources candidates InputMode.document none = uniqueSources candidates := rfl
      rw [h]; omega
    | some nm =>
      have h : resolveSources candidates InputMode.document (some nm) =
          uniqueSources candidates ++ [{ title := nm, uri := "#" }] := rfl
      rw [h]; simp only [List.length_append, List.length_cons, List.length_nil]; omega

/- ### C1 -/

/-- C1, counterexample to the claim as stated: `groupedSources` has no
special case for the citation-redirect indirection; the redirect-routed
candidate is grouped under the redirect URL's hostname, so no group with
domain `bbc.com` and occurrence count 2 exists for the scenario's input. -/
theorem c1_grouping_counterexample :
    (groupedSources
        [{ title := "bbc.com", uri := "https://vertexaisearch.example/redirect?id=1" },
         { title := "BBC Article", uri := "https://bbc.com/article" }]).length = 2 ∧
    ∀ g ∈ groupedSources
        [{ title := "bbc.com", uri := "https://vertexaisearch.example/redirect?id=1" },
         { title := "BBC Article", uri := "https://bbc.com/article" }],
      ¬ (g.domain = "bbc.com" ∧ g.occurrences = 2) := by
  constructor
  · rfl
  · decide

/-- C1, amended: `groupedSources` groups purely by the uri hostname
(leading `www.` stripped, the raw uri on parse failure), with no
redirect special case; the scenario's two candidates therefore land in two
distinct groups, `vertexaisearch.example` and `bbc.com`, each with
occurrence count 1. -/
theorem c1_grouping_amended :
    groupedSources
        [{ title := "bbc.com", uri := "https://vertexaisearch.example/redirect?id=1" },
         { title := "BBC Article", uri := "https://bbc.com/article" }] =
      [{ domain := "vertexaisearch.example", occurrences := 1,
         links := [{ title := "bbc.com", uri := "https://vertexaisearch.example/redirect?id=1" }] },
       { domain := "bbc.com", occurrences := 1,
         links := [{ title := "BBC Article", uri := "https://bbc.com/article" }] }] := by
  rfl

/- ### C5 -/

/-- C5: metadata parsing never escapes to the caller: whenever the fourth
delimited segment (fence-stripped, with the `||`-fallback applied) is not
valid JSON, the result has an empty keyword list and an empty meta
description. -/
theorem c5_metadata_fallback (fullText : String)
    (h : jsonParse (stripFences (metadataRawOf fullText)) = none) :
    parsedMetaFields fullText = ([], "") := by
  simp [parsedMetaFields, h]

/-- Witness for C5 at the scenario input from the specification. -/
theorem c5_metadata_fallback_witness :
    jsonParse (stripFences (metadataRawOf
      "|||HEADLINE|||Title|||BODY|||Body text|||IMAGE_PROMPT|||A prompt|||METADATA|||not json"))
      = none ∧
    parsedMetaFields
      "|||HEADLINE|||Title|||BODY|||Body text|||IMAGE_PROMPT|||A prompt|||METADATA|||not json"
      = ([], "") :=
  ⟨by rfl, c5_metadata_fallback _ (by rfl)⟩

/- ### List scanning helper lemmas -/

lemma drop_length_takeWhile (p : Char → Bool) (l : List Char) :
    l.drop (l.takeWhile p).length = l.dropWhile p := by
  nth_rewrite 2 [← List.takeWhile_append_dropWhile p l]
  rw [List.drop_left]

lemma mem_of_mem_dropWhile {c : Char} (p : Char → Bool) {l : List Char}
    (h : c ∈ l.dropWhile p) : c ∈ l :=
  (List.dropWhile_suffix p).subset h

lemma mem_of_mem_takeWhile {c : Char} (p : Char → Bool) {l : List Char}
    (h : c ∈ l.takeWhile p) : c ∈ l :=
  (List.takeWhile_prefix p).subset h

lemma contains_iff_mem {l : List Char} {a : Char} : l.contains a = true ↔ a ∈ l := by
  simp [List.contains, List.elem_iff]

lemma jsTrimChars_subset {c : Char} {s : List Char} (h : c ∈ jsTrimChars s) : c ∈ s := by
  unfold jsTrimChars at h
  rw [List.mem_reverse] at h
  have h2 := mem_of_mem_dropWhile isJsWS h
  rw [List.mem_reverse] at h2
  exact mem_of_mem_dropWhile isJsWS h2

lemma jsTrimChars_decomp (s : List Char) : ∃ a b, s = a ++ jsTrimChars s ++ b := by
  obtain ⟨a, ha⟩ := List.dropWhile_suffix (l := s) isJsWS
  obtain ⟨b, hb⟩ := List.dropWhile_suffix (l := (s.dropWhile isJsWS).reverse) isJsWS
  refine ⟨a, b.reverse, ?_⟩
  have hrev := congrArg List.reverse hb
  rw [List.reverse_append, List.reverse_reverse] at hrev
  have hu : s.dropWhile isJsWS = jsTrimChars s ++ b.reverse := by
    rw [← hrev]; rfl
  conv_lhs => rw [← ha]
  rw [hu, List.append_assoc]

/- ### Lemmas about the tag predicates -/

lemma startsTagTail_iff {d : Char} {ds : List Char} :
    startsTagTail (d :: ds) = true ↔ d ≠ '>' ∧ '>' ∈ ds := by
  simp [startsTagTail, contains_iff_mem]

lemma startsTagTail_false_no_gt {l : List Char} (h : '>' ∉ l) : startsTagTail l = false := by
  cases l with
  | nil => rfl
  | cons d ds =>
    rw [Bool.eq_false_iff]
    intro hc
    exact h (List.mem_cons_of_mem d ((startsTagTail_iff.mp hc).2))

lemma hasTag_cons {c : Char} {cs : List Char} :
    hasTag (c :: cs) = ((c == '<' && startsTagTail cs) || hasTag cs) := rfl

lemma hasTag_cons_ne {c : Char} {cs : List Char} (hc : c ≠ '<') :
    hasTag (c :: cs) = hasTag cs := by
  simp [hasTag_cons, hc]

lemma hasTag_tail {c : Char} {cs : List Char} (h : hasTag (c :: cs) = false) :
    hasTag cs = false := by
  rw [hasTag_cons, Bool.or_eq_false_iff] at h
  exact h.2

lemma startsTagTail_append {l b : List Char} (h : startsTagTail l = true) :
    startsTagTail (l ++ b) = true := by
  cases l with
  | nil => simp [startsTagTail] at h
  | cons d ds =>
    obtain ⟨hd, hmem⟩ := startsTagTail_iff.mp h
    exact startsTagTail_iff.mpr ⟨hd, by simp [hmem]⟩

lemma hasTag_append_right {l b : List Char} (h : hasTag l = true) :
    hasTag (l ++ b) = true := by
  induction l with
  | nil => simp [hasTag] at h
  | cons c cs ih =>
    rw [hasTag_cons, Bool.or_eq_true] at h
    rcases h with h | h
    · rw [Bool.and_eq_true] at h
      rw [List.cons_append, hasTag_cons, Bool.or_eq_true]
      exact Or.inl (by rw [Bool.and_eq_true]; exact ⟨h.1, startsTagTail_append h.2⟩)
    · rw [List.cons_append, hasTag_cons, Bool.or_eq_true]
      exact Or.inr (ih h)

lemma hasTag_append_left {b : List Char} (a : List Char) (h : hasTag b = true) :
    hasTag (a ++ b) = true := by
  induction a with
  | nil => simpa using h
  | cons c a' ih =>
    rw [List.cons_append, hasTag_cons, Bool.or_eq_true]
    exact Or.inr ih

lemma hasTag_infix_false {t s : List Char} (a b : List Char)
    (hdecomp : s = a ++ t ++ b) (hs : hasTag s = false) : hasTag t = false := by
  rw [Bool.eq_false_iff]
  intro hcon
  have h1 : hasTag (t ++ b) = true := hasTag_append_right hcon
  have h2 : hasTag (a ++ (t ++ b)) = true := hasTag_append_left a h1
  rw [← List.append_assoc, ← hdecomp] at h2
  rw [hs] at h2
  exact Bool.false_ne_true h2

lemma hasTag_suffix_false {t s : List Char} (hsuf : t <:+ s) (hs : hasTag s = false) :
    hasTag t = false := by
  obtain ⟨a, rfl⟩ := hsuf
  exact hasTag_infix_false a [] (by simp) hs

lemma hasTag_no_gt {s : List Char} (h : '>' ∉ s) : hasTag s = false := by
  induction s with
  | nil => rfl
  | cons c cs ih =>
    rw [hasTag_cons, Bool.or_eq_false_iff]
    constructor
    · rw [Bool.and_eq_false_iff]
      exact Or.inr (startsTagTail_false_no_gt (fun hm => h (List.mem_cons_of_mem c hm)))
    · exact ih (fun hm => h (List.mem_cons_of_mem c hm))

lemma hasTag_mem_gt {s : List Char} (h : hasTag s = true) : '>' ∈ s := by
  induction s with
  | nil => simp [hasTag] at h
  | cons c cs ih =>
    rw [hasTag_cons, Bool.or_eq_true] at h
    rcases h with h | h
    · rw [Bool.and_eq_true] at h
      cases cs with
      | nil => simp [startsTagTail] at h
      | cons d ds =>
        exact List.mem_cons_of_mem c (List.mem_cons_of_mem d ((startsTagTail_iff.mp h.2).2))
    · exact List.mem_cons_of_mem c (ih h)

/- ### Lemmas about `has3Nl` and `leadingNl` -/

lemma has3Nl_short (s : List Char) (h : s.length ≤ 2) : has3Nl s = false := by
  match s with
  | [] => rfl
  | [_] => rfl
  | [_, _] => rfl
  | _ :: _ :: _ :: _ => simp at h

lemma has3Nl_cons_ne {c : Char} {l : List Char} (hc : c ≠ '\n') :
    has3Nl (c :: l) = has3Nl l := by
  match l with
  | [] => rfl
  | [_] => rfl
  | x :: y :: r => simp [has3Nl, hc]

lemma has3Nl_cons_of {c : Char} {l : List Char} (h : has3Nl l = true) :
    has3Nl (c :: l) = true := by
  match l with
  | [] => simp [has3Nl] at h
  | [_] => simp [has3Nl] at h
  | x :: y :: r =>
    simp only [has3Nl, Bool.or_eq_true]
    exact Or.inr h

lemma has3Nl_append_right {l b : List Char} (h : has3Nl l = true) :
    has3Nl (l ++ b) = true := by
  induction l with
  | nil => simp [has3Nl] at h
  | cons c cs ih =>
    match cs, h with
    | [], h => simp [has3Nl] at h
    | [_], h => simp [has3Nl] at h
    | x :: y :: r, h =>
      simp only [has3Nl, Bool.or_eq_true] at h
      rcases h with h | h
      · simp only [List.cons_append, has3Nl, Bool.or_eq_true]
        exact Or.inl h
      · have := ih (by simpa [has3Nl] using h)
        simp only [List.cons_append] at this ⊢
        exact has3Nl_cons_of this

lemma has3Nl_append_left {b : List Char} (a : List Char) (h : has3Nl b = true) :
    has3Nl (a ++ b) = true := by
  induction a with
  | nil => simpa using h
  | cons c a' ih => exact has3Nl_cons_of ih

lemma has3Nl_infix_false {t s : List Char} (a b : List Char)
    (hdecomp : s = a ++ t ++ b) (hs : has3Nl s = false) : has3Nl t = false := by
  rw [Bool.eq_false_iff]
  intro hcon
  have h2 : has3Nl (a ++ (t ++ b)) = true := has3Nl_append_left a (has3Nl_append_right hcon)
  rw [← List.append_assoc, ← hdecomp, hs] at h2
  exact Bool.false_ne_true h2

lemma has3Nl_suffix_false {t s : List Char} (hsuf : t <:+ s) (hs : has3Nl s = false) :
    has3Nl t = false := by
  obtain ⟨a, rfl⟩ := hsuf
  exact has3Nl_infix_false a [] (by simp) hs

lemma leadingNl_nil : leadingNl [] = 0 := rfl

lemma leadingNl_cons_nl (t : List Char) : leadingNl ('\n' :: t) = 1 + leadingNl t := by
  simp [leadingNl, List.takeWhile_cons, Nat.add_comm]

lemma leadingNl_cons_ne {c : Char} (t : List Char) (hc : c ≠ '\n') :
    leadingNl (c :: t) = 0 := by
  simp [leadingNl, List.takeWhile_cons, hc]

lemma leadingNl_zero_head {x : Char} {xs : List Char} (h : leadingNl (x :: xs) = 0) :
    x ≠ '\n' := by
  intro hx
  subst hx
  rw [leadingNl_cons_nl] at h
  omega

/- ### Generic lemmas about the replace scanner -/

lemma rewriteF_nil (step : Step) (n : Nat) : rewriteF step n [] = [] := by
  cases n <;> rfl

lemma rewriteF_zero (step : Step) (s : List Char) : rewriteF step 0 s = s := by
  cases s <;> rfl

lemma rewriteF_cons_none {step : Step} {c : Char} {cs : List Char} (n : Nat)
    (h : step (c :: cs) = none) :
    rewriteF step (n + 1) (c :: cs) = c :: rewriteF step n cs := by
  simp [rewriteF, h]

lemma rewriteF_cons_some {step : Step} {c : Char} {cs rep rest : List Char} (n : Nat)
    (h : step (c :: cs) = some (rep, rest)) :
    rewriteF step (n + 1) (c :: cs) = rep ++ rewriteF step n rest := by
  simp [rewriteF, h]

lemma rewriteF_eq_self (step : Step) (s : List Char)
    (h : ∀ t, t <:+ s → step t = none) : ∀ n, rewriteF step n s = s := by
  induction s with
  | nil => intro n; exact rewriteF_nil step n
  | cons c cs ih =>
    intro n
    cases n with
    | zero => exact rewriteF_zero step _
    | succ m =>
      rw [rewriteF_cons_none m (h (c :: cs) List.suffix_rfl)]
      rw [ih (fun t ht => h t (ht.trans (List.suffix_cons c cs))) m]

/-- A step fires only where its guard holds; if the guard fails on the
whole string (and is preserved by left extension), the scan is the
identity. -/
lemma rewriteF_eq_self_of_guard (step : Step) (P : List Char → Bool)
    (hstep : ∀ t r, step t = some r → P t = true)
    (hmono : ∀ (a t : List Char), P t = true → P (a ++ t) = true)
    (s : List Char) (hs : P s = false) : ∀ n, rewriteF step n s = s := by
  apply rewriteF_eq_self
  intro t ht
  obtain ⟨a, rfl⟩ := ht
  cases hcase : step t with
  | none => rfl
  | some r =>
    have h1 : P t = true := hstep t r hcase
    have h2 := hmono a t h1
    rw [hs] at h2
    exact absurd h2 Bool.false_ne_true

/-- Characters produced by a scan come from the input or from the step's
replacement literals. -/
lemma rewriteF_chars (step : Step) (extra : List Char)
    (hstep : ∀ t rep rest, step t = some (rep, rest) →
      (∀ c ∈ rep, c ∈ t ∨ c ∈ extra) ∧ rest <:+ t) :
    ∀ (n : Nat) (s : List Char), ∀ c ∈ rewriteF step n s, c ∈ s ∨ c ∈ extra := by
  intro n
  induction n with
  | zero =>
    intro s c hc
    rw [rewriteF_zero] at hc
    exact Or.inl hc
  | succ m ih =>
    intro s c hc
    cases s with
    | nil => rw [rewriteF_nil] at hc; simp at hc
    | cons x xs =>
      cases hcase : step (x :: xs) with
      | none =>
        rw [rewriteF_cons_none m hcase] at hc
        rcases List.mem_cons.mp hc with h | h
        · exact Or.inl (h ▸ List.mem_cons_self x xs)
        · rcases ih xs c h with h' | h'
          · exact Or.inl (List.mem_cons_of_mem x h')
          · exact Or.inr h'
      | some pr =>
        obtain ⟨rep, rest⟩ := pr
        obtain ⟨hrep, hrest⟩ := hstep _ _ _ hcase
        rw [rewriteF_cons_some m hcase] at hc
        rcases List.mem_append.mp hc with h | h
        · exact hrep c h
        · rcases ih rest c h with h' | h'
          · exact Or.inl (hrest.subset h')
          · exact Or.inr h'

/- ### Per-step facts: guards, replacement characters, suffix progress -/

/-- Characters that the replacement callbacks of `normalizeToMarkdown` can
introduce beyond characters of the matched text. -/
def repExtra : List Char :=
  ['\n', '#', ' ', '*', '[', ']', '(', ')', '>', '-']

lemma suffix_of_drop_eq_cons {l r : List Char} {x : Char} {k : Nat}
    (h : l.drop k = x :: r) : r <:+ l :=
  (List.suffix_cons x r).trans (h ▸ List.drop_suffix k l)

lemma mem_drop_succ_cons {x d : Char} {ds : List Char} {k : Nat}
    (h : x ∈ (d :: ds).drop (k + 1)) : x ∈ ds :=
  List.mem_of_mem_drop (by simpa using h)

lemma ciEq_ne_gt {c t : Char} (h : ciEq c t = true) (hne : ciEq '>' t = false) : c ≠ '>' := by
  intro hc
  subst hc
  rw [h] at hne
  exact Bool.noConfusion hne

lemma tryTags_suffix : ∀ (tags : List (List Char)) {s v : List Char},
    tryTags s tags = some v → v <:+ s := by
  intro tags
  induction tags with
  | nil => intro s v h; simp [tryTags] at h
  | cons t ts ih =>
    intro s v h
    unfold tryTags at h
    split at h
    · injection h with h1
      exact h1 ▸ List.drop_suffix t.length s
    · exact ih h

lemma tryTags_head : ∀ (tags : List (List Char)) {s v : List Char},
    (∀ t ∈ tags, ∃ p ps, t = p :: ps ∧ ciEq '>' p = false) →
    tryTags s tags = some v → ∃ d ds, s = d :: ds ∧ d ≠ '>' := by
  intro tags
  induction tags with
  | nil => intro s v _ h; simp [tryTags] at h
  | cons t ts ih =>
    intro s v htags h
    unfold tryTags at h
    split at h
    next hstarts =>
      obtain ⟨p, ps, hpt, hp⟩ := htags t (List.mem_cons_self t ts)
      subst hpt
      cases s with
      | nil => simp [ciStartsWith] at hstarts
      | cons d ds =>
        simp only [ciStartsWith, Bool.and_eq_true] at hstarts
        exact ⟨d, ds, rfl, ciEq_ne_gt hstarts.1 hp⟩
    · exact ih (fun u hu => htags u (List.mem_cons_of_mem t hu)) h

lemma findClose_spec (closer : List Char → Option (List Char))
    (hcloser : ∀ t r, closer t = some r → r <:+ t) :
    ∀ (n : Nat) (s inner rest : List Char), findClose closer n s = some (inner, rest) →
      (∀ c ∈ inner, c ∈ s) ∧ rest <:+ s := by
  intro n
  induction n with
  | zero => intro s inner rest h; simp [findClose] at h
  | succ m ih =>
    intro s inner rest h
    cases s with
    | nil => simp [findClose] at h
    | cons c cs =>
      cases hcl : closer (c :: cs) with
      | some r =>
        rw [show findClose closer (m + 1) (c :: cs) = some ([], r) from by
          simp [findClose, hcl]] at h
        simp only [Option.some.injEq, Prod.mk.injEq] at h
        obtain ⟨h1, h2⟩ := h
        subst h1; subst h2
        exact ⟨by simp, hcloser _ _ hcl⟩
      | none =>
        have heq : findClose closer (m + 1) (c :: cs) =
            match findClose closer m cs with
            | some (inner, rest) => some (c :: inner, rest)
            | none => none := by
          simp [findClose, hcl]
        rw [heq] at h
        cases hrec : findClose closer m cs with
        | none => rw [hrec] at h; simp at h
        | some pr =>
          obtain ⟨inner', rest'⟩ := pr
          rw [hrec] at h
          simp only [Option.some.injEq, Prod.mk.injEq] at h
          obtain ⟨h1, h2⟩ := h
          subst h1; subst h2
          obtain ⟨hmem, hsuf⟩ := ih cs inner' rest' hrec
          refine ⟨?_, hsuf.trans (List.suffix_cons c cs)⟩
          intro d hd
          rcases List.mem_cons.mp hd with hh | hh
          · exact hh ▸ List.mem_cons_self c cs
          · exact List.mem_cons_of_mem c (hmem d hh)

lemma stepCRLF_spec {s rep rest : List Char} (h : stepCRLF s = some (rep, rest)) :
    '\r' ∈ s ∧ (∀ c ∈ rep, c ∈ s ∨ c ∈ repExtra) ∧ rest <:+ s := by
  unfold stepCRLF at h
  split at h
  next r =>
    simp only [Option.some.injEq, Prod.mk.injEq] at h
    obtain ⟨hrep, hrest⟩ := h
    subst hrep hrest
    refine ⟨by simp, ?_, (List.suffix_cons _ _).trans (List.suffix_cons _ _)⟩
    intro c hc
    simp only [List.mem_singleton] at hc
    subst hc
    exact Or.inr (by simp [repExtra])
  next => exact absurd h (by simp)

lemma stepNl_spec {s rep rest : List Char} (h : stepNl s = some (rep, rest)) :
    has3Nl s = true ∧ (∀ c ∈ rep, c ∈ s ∨ c ∈ repExtra) ∧ rest <:+ s := by
  unfold stepNl at h
  split at h
  next t =>
    simp only [Option.some.injEq, Prod.mk.injEq] at h
    obtain ⟨hrep, hrest⟩ := h
    subst hrep
    refine ⟨by simp [has3Nl], ?_, ?_⟩
    · intro c hc
      simp only [List.mem_cons, List.not_mem_nil, or_false] at hc
      rcases hc with hc | hc <;> (subst hc; exact Or.inr (by simp [repExtra]))
    · exact hrest ▸ List.drop_suffix _ _
  next => exact absurd h (by simp)

lemma stepPClose_spec {s rep rest : List Char} (h : stepPClose s = some (rep, rest)) :
    hasTag s = true ∧ (∀ c ∈ rep, c ∈ s ∨ c ∈ repExtra) ∧ rest <:+ s := by
  unfold stepPClose at h
  split at h
  next c r =>
    split at h
    next hp =>
      simp only [Option.some.injEq, Prod.mk.injEq] at h
      obtain ⟨hrep, hrest⟩ := h
      subst hrep hrest
      refine ⟨?_, ?_, ?_⟩
      · rw [hasTag_cons, Bool.or_eq_true]
        refine Or.inl (by
          rw [Bool.and_eq_true]
          refine ⟨by simp, startsTagTail_iff.mpr ⟨by decide, by simp⟩⟩)
      · intro c hc
        simp only [List.mem_cons, List.not_mem_nil, or_false] at hc
        rcases hc with hc | hc <;> (subst hc; exact Or.inr (by simp [repExtra]))
      · exact ((List.suffix_cons _ _).trans ((List.suffix_cons _ _).trans
          ((List.suffix_cons _ _).trans (List.suffix_cons _ _))))
    next => exact absurd h (by simp)
  next => exact absurd h (by simp)

lemma stepPOpen_spec {s rep rest : List Char} (h : stepPOpen s = some (rep, rest)) :
    hasTag s = true ∧ (∀ c ∈ rep, c ∈ s ∨ c ∈ repExtra) ∧ rest <:+ s := by
  unfold stepPOpen at h
  split at h
  next c rest0 =>
    split at h
    next hp =>
      simp only at h
      split at h
      next after heq =>
        simp only [Option.some.injEq, Prod.mk.injEq] at h
        obtain ⟨hrep, hrest⟩ := h
        subst hrep hrest
        have hgt : '>' ∈ rest0 := List.mem_of_mem_drop (heq ▸ List.mem_cons_self '>' _)
        refine ⟨?_, by simp, ?_⟩
        · rw [hasTag_cons, Bool.or_eq_true]
          refine Or.inl (by
            rw [Bool.and_eq_true]
            exact ⟨by simp, startsTagTail_iff.mpr
              ⟨ciEq_ne_gt hp (by decide), hgt⟩⟩)
        · exact ((suffix_of_drop_eq_cons heq).trans
            ((List.suffix_cons _ _).trans (List.suffix_cons _ _)))
      next => exact absurd h (by simp)
    next => exact absurd h (by simp)
  next => exact absurd h (by simp)

lemma stepBr_spec {s rep rest : List Char} (h : stepBr s = some (rep, rest)) :
    hasTag s = true ∧ (∀ c ∈ rep, c ∈ s ∨ c ∈ repExtra) ∧ rest <:+ s := by
  unfold stepBr at h
  split at h
  next c1 c2 rest0 =>
    split at h
    next hbr =>
      rw [Bool.and_eq_true] at hbr
      split at h
      next after heq =>
        simp only [Option.some.injEq, Prod.mk.injEq] at h
        obtain ⟨hrep, hrest⟩ := h
        subst hrep hrest
        have hws : rest0.dropWhile isJsWS <:+ rest0 := List.dropWhile_suffix isJsWS
        have hgt : '>' ∈ rest0 := hws.subset (heq ▸ (by simp : '>' ∈ '/' :: '>' :: after))
        have hsufafter : after <:+ rest0 := by
          have h1 : after <:+ rest0.dropWhile isJsWS := by
            rw [heq]
            exact (List.suffix_cons _ _).trans (List.suffix_cons _ _)
          exact h1.trans hws
        refine ⟨?_, ?_, ?_⟩
        · rw [hasTag_cons, Bool.or_eq_true]
          refine Or.inl (by
            rw [Bool.and_eq_true]
            exact ⟨by simp, startsTagTail_iff.mpr
              ⟨ciEq_ne_gt hbr.1 (by decide),
               List.mem_cons_of_mem c2 hgt⟩⟩)
        · intro c hc
          simp only [List.mem_singleton] at hc
          subst hc
          exact Or.inr (by simp [repExtra])
        · exact ((List.dropWhile_suffix isJsWS).trans hsufafter).trans
            ((List.suffix_cons _ _).trans ((List.suffix_cons _ _).trans (List.suffix_cons _ _)))
      next after heq =>
        simp only [Option.some.injEq, Prod.mk.injEq] at h
        obtain ⟨hrep, hrest⟩ := h
        subst hrep hrest
        have hws : rest0.dropWhile isJsWS <:+ rest0 := List.dropWhile_suffix isJsWS
        have hgt : '>' ∈ rest0 := hws.subset (heq ▸ (by simp : '>' ∈ '>' :: after))
        have hsufafter : after <:+ rest0 := ((List.suffix_cons _ _).trans (heq ▸ hws) : _)
        refine ⟨?_, ?_, ?_⟩
        · rw [hasTag_cons, Bool.or_eq_true]
          refine Or.inl (by
            rw [Bool.and_eq_true]
            exact ⟨by simp, startsTagTail_iff.mpr
              ⟨ciEq_ne_gt hbr.1 (by decide),
               List.mem_cons_of_mem c2 hgt⟩⟩)
        · intro c hc
          simp only [List.mem_singleton] at hc
          subst hc
          exact Or.inr (by simp [repExtra])
        · exact ((List.dropWhile_suffix isJsWS).trans hsufafter).trans
            ((List.suffix_cons _ _).trans ((List.suffix_cons _ _).trans (List.suffix_cons _ _)))
      next => exact absurd h (by simp)
    next => exact absurd h (by simp)
  next => exact absurd h (by simp)

lemma stepStrip_spec {s rep rest : List Char} (h : stepStrip s = some (rep, rest)) :
    hasTag s = true ∧ (∀ c ∈ rep, c ∈ s ∨ c ∈ repExtra) ∧ rest <:+ s := by
  unfold stepStrip at h
  split at h
  next rest0 =>
    simp only at h
    split at h
    next hrun => exact absurd h (by simp)
    next hrun =>
      split at h
      next after heq =>
        simp only [Option.some.injEq, Prod.mk.injEq] at h
        obtain ⟨hrep, hrest⟩ := h
        subst hrep hrest
        cases rest0 with
        | nil => simp at hrun
        | cons d ds =>
          have hd : d ≠ '>' := by
            intro hd
            subst hd
            simp [List.takeWhile_cons] at hrun
          have hlen : ((d :: ds).takeWhile (fun x => x != '>')).length =
              (ds.takeWhile (fun x => x != '>')).length + 1 := by
            simp [List.takeWhile_cons, hd]
          have hgt : '>' ∈ ds := by
            have h2 : '>' ∈ (d :: ds).drop ((d :: ds).takeWhile (fun x => x != '>')).length := by
              rw [heq]; exact List.mem_cons_self '>' _
            rw [hlen] at h2
            exact mem_drop_succ_cons h2
          refine ⟨?_, by simp, ?_⟩
          · rw [hasTag_cons, Bool.or_eq_true]
            refine Or.inl (by
              rw [Bool.and_eq_true]
              exact ⟨by simp, startsTagTail_iff.mpr ⟨hd, hgt⟩⟩)
          · exact (suffix_of_drop_eq_cons heq).trans (List.suffix_cons _ _)
      next => exact absurd h (by simp)
  next => exact absurd h (by simp)

lemma pairCloser_suffix (tags : List (List Char)) :
    ∀ t r, pairCloser tags t = some r → r <:+ t := by
  intro t r h
  unfold pairCloser at h
  split at h
  next u =>
    cases htry : tryTags u tags with
    | none => rw [htry] at h; simp at h
    | some v =>
      rw [htry] at h
      simp only at h
      split at h
      next r0 =>
        injection h with h1
        subst h1
        exact ((List.suffix_cons _ _).trans (tryTags_suffix tags htry)).trans
          ((List.suffix_cons _ _).trans (List.suffix_cons _ _))
      next => exact absurd h (by simp)
  next => exact absurd h (by simp)

lemma headingCloser_suffix (d : Char) :
    ∀ t r, headingCloser d t = some r → r <:+ t := by
  intro t r htr
  unfold headingCloser at htr
  split at htr
  next sl hh dd r0 =>
    split at htr
    · injection htr with h1
      exact h1 ▸ ⟨['<', sl, hh, dd, '>'], rfl⟩
    · exact absurd htr (by simp)
  next => exact absurd htr (by simp)

lemma stepHeading_spec {s rep rest : List Char} (h : stepHeading s = some (rep, rest)) :
    hasTag s = true ∧ (∀ c ∈ rep, c ∈ s ∨ c ∈ repExtra) ∧ rest <:+ s := by
  unfold stepHeading at h
  split at h
  next c d rest0 =>
    split at h
    next hcond =>
      simp only [Bool.and_eq_true] at hcond
      simp only at h
      split at h
      next afterOpen heq =>
        split at h
        next inner rest' hfc =>
          simp only [Option.some.injEq, Prod.mk.injEq] at h
          obtain ⟨hrep, hrest⟩ := h
          subst hrep hrest
          obtain ⟨hmem, hsuf⟩ :=
            findClose_spec _ (headingCloser_suffix d) afterOpen.length afterOpen _ _ hfc
          have hmemAfter : ∀ x ∈ afterOpen, x ∈ rest0 := by
            intro x hx
            exact List.mem_of_mem_drop (heq ▸ List.mem_cons_of_mem '>' hx)
          have hgt : '>' ∈ rest0 :=
            List.mem_of_mem_drop (heq ▸ List.mem_cons_self '>' _)
          refine ⟨?_, ?_, ?_⟩
          · rw [hasTag_cons, Bool.or_eq_true]
            refine Or.inl ?_
            rw [Bool.and_eq_true]
            refine ⟨by simp, startsTagTail_iff.mpr
              ⟨ciEq_ne_gt hcond.1.1 (by decide), List.mem_cons_of_mem d hgt⟩⟩
          · intro x hx
            rcases List.mem_append.mp hx with hx | hx
            · exact Or.inr (by simp [repExtra, List.eq_of_mem_replicate hx])
            · rcases List.mem_cons.mp hx with hx | hx
              · exact Or.inr (by simp [repExtra, hx])
              · have h1 : x ∈ inner := jsTrimChars_subset hx
                exact Or.inl (List.mem_cons_of_mem '<' (List.mem_cons_of_mem c
                  (List.mem_cons_of_mem d (hmemAfter x (hmem x h1)))))
          · exact ((hsuf.trans (suffix_of_drop_eq_cons heq)).trans
              ((List.suffix_cons _ _).trans ((List.suffix_cons _ _).trans
                (List.suffix_cons _ _))))
        next => exact absurd h (by simp)
      next => exact absurd h (by simp)
    next => exact absurd h (by simp)
  next => exact absurd h (by simp)

lemma stepTagPair_spec {tags : List (List Char)} {mkRep : List Char → List Char}
    (htags : ∀ t ∈ tags, ∃ p ps, t = p :: ps ∧ ciEq '>' p = false)
    (hmk : ∀ inner, ∀ c ∈ mkRep inner, c ∈ inner ∨ c ∈ repExtra)
    {s rep rest : List Char} (h : stepTagPair tags mkRep s = some (rep, rest)) :
    hasTag s = true ∧ (∀ c ∈ rep, c ∈ s ∨ c ∈ repExtra) ∧ rest <:+ s := by
  unfold stepTagPair at h
  split at h
  next rest0 =>
    cases htry : tryTags rest0 tags with
    | none => rw [htry] at h; simp at h
    | some afterTag =>
      rw [htry] at h
      simp only at h
      split at h
      next afterOpen heq =>
        split at h
        next inner rest' hfc =>
          simp only [Option.some.injEq, Prod.mk.injEq] at h
          obtain ⟨hrep, hrest⟩ := h
          subst hrep hrest
          obtain ⟨d, ds, hs, hd⟩ := tryTags_head tags htags htry
          subst hs
          have hsufTag : afterTag <:+ (d :: ds) := tryTags_suffix tags htry
          have hgtTag : '>' ∈ afterTag :=
            List.mem_of_mem_drop (heq ▸ List.mem_cons_self '>' _)
          have hgt : '>' ∈ ds := by
            rcases List.mem_cons.mp (hsufTag.subset hgtTag) with h' | h'
            · exact absurd h'.symm hd
            · exact h'
          obtain ⟨hmem, hsuf⟩ :=
            findClose_spec _ (pairCloser_suffix tags) afterOpen.length afterOpen _ _ hfc
          have hmemAfter : ∀ x ∈ afterOpen, x ∈ d :: ds := by
            intro x hx
            exact hsufTag.subset (List.mem_of_mem_drop (heq ▸ List.mem_cons_of_mem '>' hx))
          refine ⟨?_, ?_, ?_⟩
          · rw [hasTag_cons, Bool.or_eq_true]
            exact Or.inl (by
              rw [Bool.and_eq_true]
              exact ⟨by simp, startsTagTail_iff.mpr ⟨hd, hgt⟩⟩)
          · intro x hx
            rcases hmk inner x hx with hx' | hx'
            · exact Or.inl (List.mem_cons_of_mem '<' (hmemAfter x (hmem x hx')))
            · exact Or.inr hx'
          · exact (hsuf.trans (suffix_of_drop_eq_cons heq)).trans
              (hsufTag.trans (List.suffix_cons _ _))
        next => exact absurd h (by simp)
      next => exact absurd h (by simp)
  next => exact absurd h (by simp)

lemma stepBold_spec {s rep rest : List Char} (h : stepBold s = some (rep, rest)) :
    hasTag s = true ∧ (∀ c ∈ rep, c ∈ s ∨ c ∈ repExtra) ∧ rest <:+ s := by
  refine stepTagPair_spec ?_ ?_ h
  · intro t ht
    simp only [List.mem_cons, List.not_mem_nil, or_false] at ht
    rcases ht with ht | ht <;> subst ht
    · exact ⟨'s', ['t', 'r', 'o', 'n', 'g'], by decide, by decide⟩
    · exact ⟨'b', [], by decide, by decide⟩
  · intro inner c hc
    by_cases hin : c ∈ jsTrimChars inner
    · exact Or.inl (jsTrimChars_subset hin)
    · refine Or.inr ?_
      simp only [List.mem_cons, List.mem_append, List.not_mem_nil, or_false] at hc
      have hc' : c = '*' := by tauto
      simp [repExtra, hc']

lemma stepItalic_spec {s rep rest : List Char} (h : stepItalic s = some (rep, rest)) :
    hasTag s = true ∧ (∀ c ∈ rep, c ∈ s ∨ c ∈ repExtra) ∧ rest <:+ s := by
  refine stepTagPair_spec ?_ ?_ h
  · intro t ht
    simp only [List.mem_cons, List.not_mem_nil, or_false] at ht
    rcases ht with ht | ht <;> subst ht
    · exact ⟨'e', ['m'], by decide, by decide⟩
    · exact ⟨'i', [], by decide, by decide⟩
  · intro inner c hc
    by_cases hin : c ∈ jsTrimChars inner
    · exact Or.inl (jsTrimChars_subset hin)
    · refine Or.inr ?_
      simp only [List.mem_cons, List.mem_append, List.not_mem_nil, or_false] at hc
      have hc' : c = '*' := by tauto
      simp [repExtra, hc']

lemma ulolTail_spec {t after : List Char} (h : ulolTail t = some after) :
    '>' ∈ t ∧ after <:+ t ∧ ∃ d ds, t = d :: ds ∧ d ≠ '>' := by
  unfold ulolTail at h
  cases htry : tryTags t ["ul".data, "ol".data] with
  | none => rw [htry] at h; simp at h
  | some afterTag =>
    rw [htry] at h
    simp only at h
    split at h
    next after0 heq =>
      injection h with h1
      subst h1
      have hsufTag : afterTag <:+ t := tryTags_suffix _ htry
      have hgtTag : '>' ∈ afterTag :=
        List.mem_of_mem_drop (heq ▸ List.mem_cons_self '>' _)
      refine ⟨hsufTag.subset hgtTag,
        (suffix_of_drop_eq_cons heq).trans hsufTag, ?_⟩
      refine tryTags_head _ ?_ htry
      intro u hu
      simp only [List.mem_cons, List.not_mem_nil, or_false] at hu
      rcases hu with hu | hu <;> subst hu
      · exact ⟨'u', ['l'], by decide, by decide⟩
      · exact ⟨'o', ['l'], by decide, by decide⟩
    next => exact absurd h (by simp)

lemma stepUlOl_spec {s rep rest : List Char} (h : stepUlOl s = some (rep, rest)) :
    hasTag s = true ∧ (∀ c ∈ rep, c ∈ s ∨ c ∈ repExtra) ∧ rest <:+ s := by
  unfold stepUlOl at h
  split at h
  next rest0 =>
    split at h
    next t =>
      cases hul : ulolTail t with
      | some after =>
        rw [hul] at h
        simp only [Option.some.injEq, Prod.mk.injEq] at h
        obtain ⟨hrep, hrest⟩ := h
        subst hrep hrest
        obtain ⟨hgt, hsuf, _⟩ := ulolTail_spec hul
        refine ⟨?_, by simp, ?_⟩
        · rw [hasTag_cons, Bool.or_eq_true]
          exact Or.inl (by
            rw [Bool.and_eq_true]
            exact ⟨by simp, startsTagTail_iff.mpr ⟨by decide, hgt⟩⟩)
        · exact (hsuf.trans (List.suffix_cons _ _)).trans (List.suffix_cons _ _)
      | none =>
        rw [hul] at h
        have hnone : ulolTail ('/' :: t) = none := rfl
        rw [hnone] at h
        exact absurd h (by simp)
    next hne =>
      cases hul : ulolTail rest0 with
      | some after =>
        rw [hul] at h
        simp only [Option.some.injEq, Prod.mk.injEq] at h
        obtain ⟨hrep, hrest⟩ := h
        subst hrep hrest
        obtain ⟨hgt, hsuf, d, ds, hds, hd⟩ := ulolTail_spec hul
        subst hds
        have hgt' : '>' ∈ ds := by
          rcases List.mem_cons.mp hgt with h' | h'
          · exact absurd h'.symm hd
          · exact h'
        refine ⟨?_, by simp, ?_⟩
        · rw [hasTag_cons, Bool.or_eq_true]
          exact Or.inl (by
            rw [Bool.and_eq_true]
            exact ⟨by simp, startsTagTail_iff.mpr ⟨hd, hgt'⟩⟩)
        · exact hsuf.trans (List.suffix_cons _ _)
      | none =>
        rw [hul] at h
        exact absurd h (by simp)
  next => exact absurd h (by simp)

lemma anchorCloser_suffix : ∀ t r, anchorCloser t = some r → r <:+ t := by
  intro t r h
  unfold anchorCloser at h
  split at h
  next c r0 =>
    split at h
    · injection h with h1
      exact h1 ▸ ⟨['<', '/', c, '>'], rfl⟩
    · exact absurd h (by simp)
  next => exact absurd h (by simp)

lemma tryHrefParse_spec {rest : List Char} {i : Nat} {href inner after : List Char}
    (h : tryHrefParse rest i = some (href, inner, after)) :
    '>' ∈ rest ∧ (∀ c ∈ href, c ∈ rest) ∧ (∀ c ∈ inner, c ∈ rest) ∧ after <:+ rest := by
  unfold tryHrefParse at h
  split at h
  next hci =>
    split at h
    next q vrest heq1 =>
      split at h
      next hq =>
        split at h
        next hv => exact absurd h (by simp)
        next hv =>
          split at h
          next q2 afterV heq2 =>
            split at h
            next afterOpen heq3 =>
              split at h
              next inner0 after0 hfc =>
                simp only [Option.some.injEq, Prod.mk.injEq] at h
                obtain ⟨h1, h2, h3⟩ := h
                subst h1; subst h2; subst h3
                have hsuf1 : vrest <:+ rest := suffix_of_drop_eq_cons heq1
                have hsuf2 : afterV <:+ vrest := suffix_of_drop_eq_cons heq2
                have hsuf3 : afterOpen <:+ afterV := suffix_of_drop_eq_cons heq3
                obtain ⟨hmemIn, hsufC⟩ :=
                  findClose_spec _ anchorCloser_suffix afterOpen.length afterOpen _ _ hfc
                have hgt : '>' ∈ rest := by
                  have h4 : '>' ∈ afterV :=
                    List.mem_of_mem_drop (heq3 ▸ List.mem_cons_self '>' _)
                  exact hsuf1.subset (hsuf2.subset h4)
                refine ⟨hgt, ?_, ?_, ?_⟩
                · intro c hc
                  exact hsuf1.subset (mem_of_mem_takeWhile _ hc)
                · intro c hc
                  exact hsuf1.subset (hsuf2.subset (hsuf3.subset (hmemIn c hc)))
                · exact ((hsufC.trans hsuf3).trans hsuf2).trans hsuf1
              next => exact absurd h (by simp)
            next => exact absurd h (by simp)
          next => exact absurd h (by simp)
      next => exact absurd h (by simp)
    next => exact absurd h (by simp)
  next => exact absurd h (by simp)

lemma tryAnchorIdx_spec {rest : List Char} : ∀ (i : Nat) {href inner after : List Char},
    tryAnchorIdx rest i = some (href, inner, after) →
    '>' ∈ rest ∧ (∀ c ∈ href, c ∈ rest) ∧ (∀ c ∈ inner, c ∈ rest) ∧ after <:+ rest := by
  intro i
  induction i with
  | zero =>
    intro href inner after h
    exact tryHrefParse_spec (by simpa [tryAnchorIdx] using h)
  | succ m ih =>
    intro href inner after h
    unfold tryAnchorIdx at h
    cases htp : tryHrefParse rest (m + 1) with
    | some r =>
      rw [htp] at h
      simp only [Option.some.injEq] at h
      subst h
      exact tryHrefParse_spec htp
    | none =>
      rw [htp] at h
      simp only at h
      exact ih h

lemma stepAnchor_spec {s rep rest : List Char} (h : stepAnchor s = some (rep, rest)) :
    hasTag s = true ∧ (∀ c ∈ rep, c ∈ s ∨ c ∈ repExtra) ∧ rest <:+ s := by
  unfold stepAnchor at h
  split at h
  next c rest0 =>
    split at h
    next ha =>
      simp only at h
      split at h
      next href inner after hta =>
        simp only [Option.some.injEq, Prod.mk.injEq] at h
        obtain ⟨hrep, hrest⟩ := h
        subst hrep hrest
        obtain ⟨hgt, hhref, hinner, hsuf⟩ := tryAnchorIdx_spec _ hta
        refine ⟨?_, ?_, ?_⟩
        · rw [hasTag_cons, Bool.or_eq_true]
          exact Or.inl (by
            rw [Bool.and_eq_true]
            exact ⟨by simp, startsTagTail_iff.mpr ⟨ciEq_ne_gt ha (by decide), hgt⟩⟩)
        · intro x hx
          simp only [List.mem_cons, List.mem_append, List.not_mem_nil, or_false] at hx
          have hins : ∀ y, y ∈ rest0 → y ∈ '<' :: c :: rest0 := by
            intro y hy
            exact List.mem_cons_of_mem '<' (List.mem_cons_of_mem c hy)
          rcases hx with hx | hx | hx | hx | hx | hx
          · exact Or.inr (by simp [repExtra, hx])
          · by_cases hemp : (jsTrimChars inner).isEmpty
            · rw [if_pos hemp] at hx
              exact Or.inl (hins x (hhref x hx))
            · rw [if_neg hemp] at hx
              exact Or.inl (hins x (hinner x (jsTrimChars_subset hx)))
          · exact Or.inr (by simp [repExtra, hx])
          · exact Or.inr (by simp [repExtra, hx])
          · exact Or.inl (hins x (hhref x hx))
          · exact Or.inr (by simp [repExtra, hx])
        · exact hsuf.trans ((List.suffix_cons _ _).trans (List.suffix_cons _ _))
      next => exact absurd h (by simp)
    next => exact absurd h (by simp)
  next => exact absurd h (by simp)

lemma splitOnNl_subset : ∀ (l : List Char), ∀ part ∈ splitOnNl l, ∀ c ∈ part, c ∈ l := by
  intro l
  induction l with
  | nil =>
    intro part hp c hc
    simp only [splitOnNl, List.mem_singleton] at hp
    subst hp
    simp at hc
  | cons x xs ih =>
    intro part hp c hc
    by_cases hx : x = '\n'
    · subst hx
      rw [show splitOnNl ('\n' :: xs) = [] :: splitOnNl xs from rfl] at hp
      rcases List.mem_cons.mp hp with hp | hp
      · subst hp; simp at hc
      · exact List.mem_cons_of_mem _ (ih part hp c hc)
    · have heq : splitOnNl (x :: xs) =
          (match splitOnNl xs with
          | h :: t => (x :: h) :: t
          | [] => [[x]]) := by
        simp [splitOnNl, hx]
      rw [heq] at hp
      cases hsp : splitOnNl xs with
      | nil =>
        rw [hsp] at hp
        simp only [List.mem_singleton] at hp
        subst hp
        simp only [List.mem_singleton] at hc
        subst hc
        exact List.mem_cons_self _ _
      | cons hh tt =>
        rw [hsp] at hp
        rcases List.mem_cons.mp hp with hp | hp
        · subst hp
          rcases List.mem_cons.mp hc with hc | hc
          · rw [hc]; exact List.mem_cons_self _ _
          · exact List.mem_cons_of_mem x (ih hh (hsp ▸ List.mem_cons_self hh tt) c hc)
        · exact List.mem_cons_of_mem x (ih part (hsp ▸ List.mem_cons_of_mem hh hp) c hc)

lemma joinNl_mem : ∀ (parts : List (List Char)) (c : Char),
    c ∈ joinNl parts → c = '\n' ∨ ∃ part ∈ parts, c ∈ part := by
  intro parts
  induction parts with
  | nil => intro c hc; simp [joinNl] at hc
  | cons l ls ih =>
    intro c hc
    cases ls with
    | nil =>
      rw [show joinNl [l] = l from rfl] at hc
      exact Or.inr ⟨l, by simp, hc⟩
    | cons l2 ls2 =>
      rw [show joinNl (l :: l2 :: ls2) = l ++ '\n' :: joinNl (l2 :: ls2) from rfl] at hc
      rcases List.mem_append.mp hc with hc | hc
      · exact Or.inr ⟨l, by simp, hc⟩
      · rcases List.mem_cons.mp hc with hc | hc
        · exact Or.inl hc
        · rcases ih c hc with hc | ⟨p, hp, hcp⟩
          · exact Or.inl hc
          · exact Or.inr ⟨p, List.mem_cons_of_mem l hp, hcp⟩

lemma stepCRLF_chars : ∀ t rep rest, stepCRLF t = some (rep, rest) →
    (∀ c ∈ rep, c ∈ t ∨ c ∈ repExtra) ∧ rest <:+ t :=
  fun _ _ _ ht => ⟨(stepCRLF_spec ht).2.1, (stepCRLF_spec ht).2.2⟩

lemma blockquoteRep_subset (inner : List Char) :
    ∀ c ∈ blockquoteRep inner, c ∈ inner ∨ c ∈ repExtra := by
  intro c hc
  unfold blockquoteRep at hc
  rcases joinNl_mem _ c hc with hc | ⟨part, hp, hcp⟩
  · exact Or.inr (by simp [repExtra, hc])
  · rw [List.mem_map] at hp
    obtain ⟨line, hline, hpart⟩ := hp
    subst hpart
    simp only at hcp
    by_cases hemp : (jsTrimChars line).isEmpty
    · rw [if_pos hemp] at hcp
      simp at hcp
    · rw [if_neg hemp] at hcp
      rcases List.mem_cons.mp hcp with hc' | hc'
      · exact Or.inr (by simp [repExtra, hc'])
      · rcases List.mem_cons.mp hc' with hc'' | hc''
        · exact Or.inr (by simp [repExtra, hc''])
        · have h1 : c ∈ line := jsTrimChars_subset hc''
          have h2 : c ∈ runStep stepCRLF inner := splitOnNl_subset _ line hline c h1
          exact rewriteF_chars stepCRLF repExtra stepCRLF_chars _ inner c h2

lemma blockquoteCloser_suffix : ∀ t r, blockquoteCloser t = some r → r <:+ t := by
  intro t r h
  unfold blockquoteCloser at h
  split at h
  · injection h with h1
    exact h1 ▸ List.drop_suffix 13 t
  · exact absurd h (by simp)

lemma liCloser_suffix : ∀ t r, liCloser t = some r → r <:+ t := by
  intro t r h
  unfold liCloser at h
  split at h
  · injection h with h1
    exact h1 ▸ List.drop_suffix 5 t
  · exact absurd h (by simp)

lemma stepBlockquote_spec {s rep rest : List Char} (h : stepBlockquote s = some (rep, rest)) :
    hasTag s = true ∧ (∀ c ∈ rep, c ∈ s ∨ c ∈ repExtra) ∧ rest <:+ s := by
  unfold stepBlockquote at h
  split at h
  next rest0 =>
    split at h
    next hbq =>
      simp only at h
      split at h
      next afterOpen heq =>
        split at h
        next inner rest' hfc =>
          simp only [Option.some.injEq, Prod.mk.injEq] at h
          obtain ⟨hrep, hrest⟩ := h
          subst hrep hrest
          obtain ⟨hmemIn, hsufC⟩ :=
            findClose_spec _ blockquoteCloser_suffix afterOpen.length afterOpen _ _ hfc
          cases rest0 with
          | nil => simp [ciStartsWith] at hbq
          | cons d ds =>
            rw [show ("blockquote".data) = 'b' :: "lockquote".data from rfl] at hbq
            simp only [ciStartsWith, Bool.and_eq_true] at hbq
            have hd : d ≠ '>' := ciEq_ne_gt hbq.1 (by decide)
            have hgtTag : '>' ∈ (d :: ds).drop 10 :=
              List.mem_of_mem_drop (heq ▸ List.mem_cons_self '>' _)
            have hgt : '>' ∈ ds := mem_drop_succ_cons (k := 9) hgtTag
            have hmemAfter : ∀ x ∈ afterOpen, x ∈ d :: ds := by
              intro x hx
              have h1 : x ∈ '>' :: afterOpen := List.mem_cons_of_mem '>' hx
              have h2 := heq ▸ h1
              exact List.mem_of_mem_drop (List.mem_of_mem_drop h2)
            refine ⟨?_, ?_, ?_⟩
            · rw [hasTag_cons, Bool.or_eq_true]
              exact Or.inl (by
                rw [Bool.and_eq_true]
                exact ⟨by simp, startsTagTail_iff.mpr ⟨hd, hgt⟩⟩)
            · intro x hx
              rcases blockquoteRep_subset inner x hx with hx' | hx'
              · exact Or.inl (List.mem_cons_of_mem '<' (hmemAfter x (hmemIn x hx')))
              · exact Or.inr hx'
            · exact ((hsufC.trans (suffix_of_drop_eq_cons heq)).trans
                (List.drop_suffix 10 (d :: ds))).trans (List.suffix_cons _ _)
        next => exact absurd h (by simp)
      next => exact absurd h (by simp)
    next => exact absurd h (by simp)
  next => exact absurd h (by simp)

lemma stepLi_spec {s rep rest : List Char} (h : stepLi s = some (rep, rest)) :
    hasTag s = true ∧ (∀ c ∈ rep, c ∈ s ∨ c ∈ repExtra) ∧ rest <:+ s := by
  unfold stepLi at h
  split at h
  next rest0 =>
    split at h
    next hli =>
      simp only at h
      split at h
      next afterOpen heq =>
        split at h
        next inner rest' hfc =>
          simp only [Option.some.injEq, Prod.mk.injEq] at h
          obtain ⟨hrep, hrest⟩ := h
          subst hrep hrest
          obtain ⟨hmemIn, hsufC⟩ :=
            findClose_spec _ liCloser_suffix afterOpen.length afterOpen _ _ hfc
          cases rest0 with
          | nil => simp [ciStartsWith] at hli
          | cons d ds =>
            rw [show ("li".data) = 'l' :: "i".data from rfl] at hli
            simp only [ciStartsWith, Bool.and_eq_true] at hli
            have hd : d ≠ '>' := ciEq_ne_gt hli.1 (by decide)
            have hgtTag : '>' ∈ (d :: ds).drop 2 :=
              List.mem_of_mem_drop (heq ▸ List.mem_cons_self '>' _)
            have hgt : '>' ∈ ds := mem_drop_succ_cons (k := 1) hgtTag
            have hmemAfter : ∀ x ∈ afterOpen, x ∈ d :: ds := by
              intro x hx
              have h1 : x ∈ '>' :: afterOpen := List.mem_cons_of_mem '>' hx
              have h2 := heq ▸ h1
              exact List.mem_of_mem_drop (List.mem_of_mem_drop h2)
            refine ⟨?_, ?_, ?_⟩
            · rw [hasTag_cons, Bool.or_eq_true]
              exact Or.inl (by
                rw [Bool.and_eq_true]
                exact ⟨by simp, startsTagTail_iff.mpr ⟨hd, hgt⟩⟩)
            · intro x hx
              by_cases hemp : (jsTrimChars inner).isEmpty
              · rw [if_pos hemp] at hx
                simp at hx
              · rw [if_neg hemp] at hx
                rcases List.mem_cons.mp hx with hx' | hx'
                · exact Or.inr (by simp [repExtra, hx'])
                · rcases List.mem_cons.mp hx' with hx'' | hx''
                  · exact Or.inr (by simp [repExtra, hx''])
                  · rcases List.mem_append.mp hx'' with hx3 | hx3
                    · exact Or.inl (List.mem_cons_of_mem '<'
                        (hmemAfter x (hmemIn x (jsTrimChars_subset hx3))))
                    · exact Or.inr (by
                        simp only [List.mem_singleton] at hx3
                        simp [repExtra, hx3])
            · exact ((hsufC.trans (suffix_of_drop_eq_cons heq)).trans
                (List.drop_suffix 2 (d :: ds))).trans (List.suffix_cons _ _)
        next => exact absurd h (by simp)
      next => exact absurd h (by simp)
    next => exact absurd h (by simp)
  next => exact absurd h (by simp)

/- ### Reduction equations for the strip and newline-collapse steps -/

lemma stepStrip_cons_ne {c : Char} {cs : List Char} (hc : c ≠ '<') :
    stepStrip (c :: cs) = none := by
  unfold stepStrip
  split
  next heq =>
    injection heq with h1 h2
    exact absurd h1 hc
  next => rfl

lemma stepNl_cons_ne {c : Char} {cs : List Char} (hc : c ≠ '\n') :
    stepNl (c :: cs) = none := by
  unfold stepNl
  split
  next heq =>
    injection heq with h1 h2
    exact absurd h1 hc
  next => rfl

lemma stepStrip_lt (cs : List Char) :
    stepStrip ('<' :: cs) =
      (if (cs.takeWhile (fun x => x != '>')).isEmpty then none
       else
         match cs.drop (cs.takeWhile (fun x => x != '>')).length with
         | '>' :: after => some (([] : List Char), after)
         | _ => none) := rfl

lemma stepNl_two {c : Char} {cs : List Char} (hc : c ≠ '\n') :
    stepNl ('\n' :: c :: cs) = none := by
  unfold stepNl
  split
  next heq =>
    injection heq with h1 h2
    injection h2 with h3 h4
    exact absurd h3 hc
  next => rfl

lemma stepNl_three {c : Char} {cs : List Char} (hc : c ≠ '\n') :
    stepNl ('\n' :: '\n' :: c :: cs) = none := by
  unfold stepNl
  split
  next heq =>
    injection heq with h1 h2
    injection h2 with h3 h4
    injection h4 with h5 h6
    exact absurd h5 hc
  next => rfl

lemma stepNl_match (t : List Char) :
    stepNl ('\n' :: '\n' :: '\n' :: t) =
      some (['\n', '\n'],
        ('\n' :: '\n' :: '\n' :: t).drop
          (('\n' :: '\n' :: '\n' :: t).takeWhile (fun x => x == '\n')).length) := rfl

lemma stepNl_rep {s rep rest : List Char} (h : stepNl s = some (rep, rest)) :
    rep = ['\n', '\n'] := by
  unfold stepNl at h
  split at h
  next t =>
    simp only [Option.some.injEq, Prod.mk.injEq] at h
    exact h.1.symm
  next => exact absurd h (by simp)

lemma stepNl_chars_nl : ∀ t rep rest, stepNl t = some (rep, rest) →
    (∀ c ∈ rep, c ∈ t ∨ c ∈ ['\n']) ∧ rest <:+ t := by
  intro t rep rest h
  refine ⟨?_, (stepNl_spec h).2.2⟩
  intro c hc
  rw [stepNl_rep h] at hc
  simp only [List.mem_cons, List.not_mem_nil, or_false] at hc
  rcases hc with hc | hc <;> (subst hc; exact Or.inr (by simp))

/- ### After the strip pass the text has no tag-shaped substring -/

lemma rewriteF_stepStrip_noTag :
    ∀ (n : Nat) (s : List Char), s.length ≤ n → hasTag (rewriteF stepStrip n s) = false := by
  intro n
  induction n using Nat.strong_induction_on with
  | _ n ih =>
    intro s hs
    cases s with
    | nil => rw [rewriteF_nil]; rfl
    | cons c cs =>
      cases n with
      | zero => simp at hs
      | succ m =>
        have hlen : cs.length ≤ m := by
          simp only [List.length_cons] at hs
          omega
        by_cases hc : c = '<'
        · subst hc
          by_cases hgt : '>' ∈ cs
          · by_cases hrun : ((cs.takeWhile (fun x => x != '>')).isEmpty : Bool) = true
            · -- the run of non-`>` is empty, so `cs` starts with `>`
              have hcs : ∃ cs', cs = '>' :: cs' := by
                cases cs with
                | nil => simp at hgt
                | cons d ds =>
                  by_cases hd : d = '>'
                  · exact ⟨ds, by rw [hd]⟩
                  · exfalso
                    have : (d != '>') = true := by simp [hd]
                    simp [List.takeWhile_cons, this] at hrun
              obtain ⟨cs', rfl⟩ := hcs
              have hnone : stepStrip ('<' :: '>' :: cs') = none := rfl
              rw [rewriteF_cons_none m hnone]
              cases m with
              | zero => simp at hlen
              | succ m2 =>
                have hnone2 : stepStrip ('>' :: cs') = none := stepStrip_cons_ne (by decide)
                rw [rewriteF_cons_none m2 hnone2]
                have hrec : hasTag (rewriteF stepStrip m2 cs') = false := by
                  apply ih m2 (by omega) cs'
                  simp only [List.length_cons] at hlen
                  omega
                rw [hasTag_cons, hasTag_cons]
                have h1 : startsTagTail ('>' :: rewriteF stepStrip m2 cs') = false := by
                  simp [startsTagTail]
                simp [h1, hrec]
            · -- non-empty run followed by a `>`: the step fires
              have hex : ∃ after, cs.dropWhile (fun x => x != '>') = '>' :: after := by
                cases hdw : cs.dropWhile (fun x => x != '>') with
                | nil =>
                  exfalso
                  have := List.dropWhile_eq_nil_iff.mp hdw '>' hgt
                  simp at this
                | cons d after =>
                  have hd : (d != '>') = false := by
                    have hh := List.head_dropWhile_not (fun x => x != '>') cs
                      (by rw [hdw]; simp)
                    simp only [hdw, List.head_cons] at hh
                    exact hh
                  have : d = '>' := by simpa using hd
                  exact ⟨after, by rw [this]⟩
              obtain ⟨after, hafter⟩ := hex
              have hdrop : cs.drop (cs.takeWhile (fun x => x != '>')).length = '>' :: after := by
                rw [drop_length_takeWhile]
                exact hafter
              have hsome : stepStrip ('<' :: cs) = some ([], after) := by
                rw [stepStrip_lt, if_neg hrun, hdrop]
                rfl
              rw [rewriteF_cons_some m hsome]
              rw [List.nil_append]
              apply ih m (by omega) after
              have hlen2 := congrArg List.length hdrop
              simp only [List.length_drop, List.length_cons] at hlen2
              omega
          · -- no `>` anywhere after the `<`: the scan is the identity here
            have hpfalse : (('<' :: cs).contains '>') = false := by
              rw [Bool.eq_false_iff]
              intro hcon
              rcases List.mem_cons.mp (contains_iff_mem.mp hcon) with h | h
              · exact absurd h (by decide)
              · exact hgt h
            have hid : rewriteF stepStrip (m + 1) ('<' :: cs) = '<' :: cs :=
              rewriteF_eq_self_of_guard stepStrip (fun t => t.contains '>')
                (fun t r ht => contains_iff_mem.mpr (hasTag_mem_gt (stepStrip_spec ht).1))
                (fun a t ht => contains_iff_mem.mpr
                  (List.mem_append_right a (contains_iff_mem.mp ht)))
                _ hpfalse (m + 1)
            rw [hid, hasTag_cons]
            have h1 : startsTagTail cs = false := startsTagTail_false_no_gt hgt
            have h2 : hasTag cs = false := hasTag_no_gt hgt
            simp [h1, h2]
        · have hnone : stepStrip (c :: cs) = none := stepStrip_cons_ne hc
          rw [rewriteF_cons_none m hnone, hasTag_cons_ne hc]
          exact ih m (by omega) cs hlen

/- ### After the collapse pass there are no triple newlines -/

lemma has3Nl_nl_cons {X : List Char} (hlead : leadingNl X ≤ 1) (hX : has3Nl X = false) :
    has3Nl ('\n' :: X) = false := by
  cases X with
  | nil => rfl
  | cons x xs =>
    by_cases hx : x = '\n'
    · subst hx
      cases xs with
      | nil => rfl
      | cons y ys =>
        have hy : y ≠ '\n' := by
          intro hy
          subst hy
          rw [leadingNl_cons_nl, leadingNl_cons_nl] at hlead
          omega
        simp only [has3Nl, Bool.or_eq_false_iff]
        exact ⟨by simp [hy], hX⟩
    · cases xs with
      | nil => rfl
      | cons y ys =>
        simp only [has3Nl, Bool.or_eq_false_iff]
        constructor
        · simp [hx]
        · rw [has3Nl_cons_ne hx] at hX ⊢
          exact hX

lemma has3Nl_two_nl {X : List Char} (hlead : leadingNl X = 0) (hX : has3Nl X = false) :
    has3Nl ('\n' :: '\n' :: X) = false := by
  have h1 : has3Nl ('\n' :: X) = false := has3Nl_nl_cons (by omega) hX
  cases X with
  | nil => rfl
  | cons x xs =>
    have hx : x ≠ '\n' := leadingNl_zero_head hlead
    simp only [has3Nl, Bool.or_eq_false_iff]
    exact ⟨by simp [hx], h1⟩

lemma leadingNl_dropWhile (l : List Char) :
    leadingNl (l.dropWhile (fun c => c == '\n')) = 0 := by
  cases hdw : l.dropWhile (fun c => c == '\n') with
  | nil => rfl
  | cons x xs =>
    have hh := List.head_dropWhile_not (fun c => c == '\n') l (by rw [hdw]; simp)
    simp only [hdw, List.head_cons] at hh
    exact leadingNl_cons_ne xs (by simpa using hh)

lemma rewriteF_stepNl_flat :
    ∀ (n : Nat) (s : List Char), s.length ≤ n →
      has3Nl (rewriteF stepNl n s) = false ∧
      leadingNl (rewriteF stepNl n s) ≤ leadingNl s := by
  intro n
  induction n using Nat.strong_induction_on with
  | _ n ih =>
    intro s hs
    cases s with
    | nil => rw [rewriteF_nil]; exact ⟨rfl, Nat.le_refl _⟩
    | cons c cs =>
      cases n with
      | zero => simp at hs
      | succ m =>
        have hlen : cs.length ≤ m := by
          simp only [List.length_cons] at hs
          omega
        by_cases hc : c = '\n'
        · subst hc
          cases cs with
          | nil =>
            rw [rewriteF_cons_none m (rfl : stepNl ['\n'] = none), rewriteF_nil]
            exact ⟨rfl, Nat.le_refl _⟩
          | cons c2 cs2 =>
            by_cases hc2 : c2 = '\n'
            · subst hc2
              cases cs2 with
              | nil =>
                rw [rewriteF_cons_none m (rfl : stepNl ['\n', '\n'] = none)]
                obtain ⟨hf, hl⟩ := ih m (by omega) ['\n'] (by simpa using hlen)
                refine ⟨has3Nl_nl_cons ?_ hf, ?_⟩
                · calc leadingNl (rewriteF stepNl m ['\n']) ≤ leadingNl ['\n'] := hl
                    _ ≤ 1 := by simp [leadingNl]
                · rw [leadingNl_cons_nl, leadingNl_cons_nl]
                  have : leadingNl (['\n'] : List Char) = 1 := by simp [leadingNl]
                  omega
              | cons c3 cs3 =>
                by_cases hc3 : c3 = '\n'
                · subst hc3
                  -- three leading newlines: the collapse fires
                  rw [rewriteF_cons_some m (stepNl_match cs3)]
                  have hdw : ('\n' :: '\n' :: '\n' :: cs3).drop
                      ((('\n' :: '\n' :: '\n' :: cs3).takeWhile (fun x => x == '\n')).length) =
                      ('\n' :: '\n' :: '\n' :: cs3).dropWhile (fun x => x == '\n') :=
                    drop_length_takeWhile _ _
                  rw [hdw]
                  have hdw2 : ('\n' :: '\n' :: '\n' :: cs3).dropWhile (fun x => x == '\n') =
                      cs3.dropWhile (fun x => x == '\n') := by
                    simp [List.dropWhile_cons]
                  rw [hdw2]
                  have hlendw : (cs3.dropWhile (fun x => x == '\n')).length ≤ m := by
                    have h1 : (cs3.dropWhile (fun x => x == '\n')).length ≤ cs3.length :=
                      (List.dropWhile_suffix _).length_le
                    simp only [List.length_cons] at hlen
                    omega
                  obtain ⟨hf, hl⟩ := ih m (by omega) (cs3.dropWhile (fun x => x == '\n')) hlendw
                  have hl0 : leadingNl (rewriteF stepNl m (cs3.dropWhile (fun x => x == '\n'))) = 0 := by
                    have := leadingNl_dropWhile cs3
                    omega
                  constructor
                  · show has3Nl ('\n' :: '\n' ::
                      rewriteF stepNl m (cs3.dropWhile (fun x => x == '\n'))) = false
                    exact has3Nl_two_nl hl0 hf
                  · show leadingNl ('\n' :: '\n' ::
                      rewriteF stepNl m (cs3.dropWhile (fun x => x == '\n'))) ≤ _
                    rw [leadingNl_cons_nl, leadingNl_cons_nl, hl0]
                    rw [leadingNl_cons_nl, leadingNl_cons_nl, leadingNl_cons_nl]
                    omega
                · rw [rewriteF_cons_none m (stepNl_three hc3)]
                  obtain ⟨hf, hl⟩ := ih m (by omega) ('\n' :: c3 :: cs3) hlen
                  have hlead2 : leadingNl ('\n' :: c3 :: cs3) = 1 := by
                    rw [leadingNl_cons_nl, leadingNl_cons_ne _ hc3]
                  refine ⟨has3Nl_nl_cons (by omega) hf, ?_⟩
                  rw [leadingNl_cons_nl]
                  rw [leadingNl_cons_nl, hlead2]
                  omega
            · rw [rewriteF_cons_none m (stepNl_two hc2)]
              obtain ⟨hf, hl⟩ := ih m (by omega) (c2 :: cs2) hlen
              have hlead2 : leadingNl (c2 :: cs2) = 0 := leadingNl_cons_ne _ hc2
              refine ⟨has3Nl_nl_cons (by omega) hf, ?_⟩
              rw [leadingNl_cons_nl, leadingNl_cons_nl]
              omega
        · rw [rewriteF_cons_none m (stepNl_cons_ne hc)]
          obtain ⟨hf, hl⟩ := ih m (by omega) cs hlen
          refine ⟨?_, ?_⟩
          · rw [has3Nl_cons_ne hc]
            exact hf
          · rw [leadingNl_cons_ne _ hc, leadingNl_cons_ne _ hc]

/- ### The collapse pass preserves tag-freeness -/

lemma rewriteF_stepNl_noTag :
    ∀ (n : Nat) (s : List Char), hasTag s = false →
      hasTag (rewriteF stepNl n s) = false := by
  intro n
  induction n with
  | zero => intro s hsx; rw [rewriteF_zero]; exact hsx
  | succ m ih =>
    intro s hsx
    cases s with
    | nil => rw [rewriteF_nil]; rfl
    | cons c cs =>
      cases hstep : stepNl (c :: cs) with
      | some pr =>
        obtain ⟨rep, rest⟩ := pr
        rw [rewriteF_cons_some m hstep]
        have hrest : hasTag rest = false := hasTag_suffix_false (stepNl_spec hstep).2.2 hsx
        have hrec := ih rest hrest
        rw [stepNl_rep hstep]
        show hasTag ('\n' :: '\n' :: rewriteF stepNl m rest) = false
        rw [hasTag_cons_ne (by decide), hasTag_cons_ne (by decide)]
        exact hrec
      | none =>
        rw [rewriteF_cons_none m hstep]
        have htail : hasTag cs = false := hasTag_tail hsx
        have hrec := ih cs htail
        by_cases hc : c = '<'
        · subst hc
          have hstt : startsTagTail cs = false := by
            rw [hasTag_cons, Bool.or_eq_false_iff, Bool.and_eq_false_iff] at hsx
            rcases hsx.1 with h | h
            · simp at h
            · exact h
          cases cs with
          | nil => rw [rewriteF_nil]; rfl
          | cons d ds =>
            by_cases hd : d = '>'
            · subst hd
              have hhead : ∃ W, rewriteF stepNl m ('>' :: ds) = '>' :: W := by
                cases m with
                | zero => exact ⟨ds, rewriteF_zero _ _⟩
                | succ m2 =>
                  exact ⟨rewriteF stepNl m2 ds,
                    rewriteF_cons_none m2 (stepNl_cons_ne (by decide))⟩
              obtain ⟨W, hW⟩ := hhead
              rw [hasTag_cons, hW]
              have h1 : startsTagTail ('>' :: W) = false := by simp [startsTagTail]
              rw [hW] at hrec
              simp [h1, hrec]
            · have hgt : '>' ∉ (d :: ds) := by
                intro hmem
                rcases List.mem_cons.mp hmem with h | h
                · exact hd h.symm
                · have := startsTagTail_iff.mpr ⟨hd, h⟩
                  rw [hstt] at this
                  exact Bool.noConfusion this
              have hgtX : '>' ∉ rewriteF stepNl m (d :: ds) := by
                intro hmem
                rcases rewriteF_chars stepNl ['\n'] stepNl_chars_nl m (d :: ds) '>' hmem with h | h
                · exact hgt h
                · simp at h
              rw [hasTag_cons]
              have h1 : startsTagTail (rewriteF stepNl m (d :: ds)) = false :=
                startsTagTail_false_no_gt hgtX
              simp [h1, hrec]
        · rw [hasTag_cons_ne hc]
          exact hrec

/- ### Trim idempotence -/

lemma dropWhile_dropWhile (p : Char → Bool) (l : List Char) :
    (l.dropWhile p).dropWhile p = l.dropWhile p := by
  cases hdw : l.dropWhile p with
  | nil => rfl
  | cons x xs =>
    have hh := List.head_dropWhile_not p l (by rw [hdw]; simp)
    simp only [hdw, List.head_cons] at hh
    rw [List.dropWhile_cons]
    simp [hh]

lemma jsTrimChars_idem (l : List Char) : jsTrimChars (jsTrimChars l) = jsTrimChars l := by
  have h1 : (jsTrimChars l).dropWhile isJsWS = jsTrimChars l := by
    cases hT : jsTrimChars l with
    | nil => rfl
    | cons x xs =>
      obtain ⟨a, ha⟩ := List.dropWhile_suffix
        (l := (l.dropWhile isJsWS).reverse) (p := isJsWS)
      have hw : l.dropWhile isJsWS = jsTrimChars l ++ a.reverse := by
        have h2 := congrArg List.reverse ha
        simpa [jsTrimChars] using h2.symm
      have hne : l.dropWhile isJsWS ≠ [] := by
        rw [hw, hT]; simp
      have hh := List.head_dropWhile_not isJsWS l hne
      have hwx : l.dropWhile isJsWS = x :: (xs ++ a.reverse) := by
        rw [hw, hT]; rfl
      simp only [hwx, List.head_cons] at hh
      rw [List.dropWhile_cons]
      simp [hh]
  have h2 : (jsTrimChars l).reverse.dropWhile isJsWS = (jsTrimChars l).reverse := by
    have hrev : (jsTrimChars l).reverse = (l.dropWhile isJsWS).reverse.dropWhile isJsWS := by
      simp [jsTrimChars]
    rw [hrev]
    exact dropWhile_dropWhile isJsWS (l.dropWhile isJsWS).reverse
  calc jsTrimChars (jsTrimChars l)
      = (((jsTrimChars l).dropWhile isJsWS).reverse.dropWhile isJsWS).reverse := rfl
    _ = ((jsTrimChars l).reverse.dropWhile isJsWS).reverse := by rw [h1]
    _ = (jsTrimChars l).reverse.reverse := by rw [h2]
    _ = jsTrimChars l := List.reverse_reverse _

lemma hasTag_jsTrim {s : List Char} (h : hasTag s = false) :
    hasTag (jsTrimChars s) = false := by
  obtain ⟨a, b, hab⟩ := jsTrimChars_decomp s
  exact hasTag_infix_false a b hab h

lemma has3Nl_jsTrim {s : List Char} (h : has3Nl s = false) :
    has3Nl (jsTrimChars s) = false := by
  obtain ⟨a, b, hab⟩ := jsTrimChars_decomp s
  exact has3Nl_infix_false a b hab h

/- ### Pass-identity lemmas: each replace is a no-op once its guard fails -/

lemma runStep_id_of_noCR {s : List Char} (h : '\r' ∉ s) : runStep stepCRLF s = s :=
  rewriteF_eq_self_of_guard stepCRLF (fun t => t.contains '\r')
    (fun t r ht => by
      obtain ⟨rep, rest⟩ := r
      exact contains_iff_mem.mpr (stepCRLF_spec ht).1)
    (fun a t ht =>
      contains_iff_mem.mpr (List.mem_append_right a (contains_iff_mem.mp ht)))
    s (by
      rw [Bool.eq_false_iff]
      intro hc
      exact h (contains_iff_mem.mp hc))
    s.length

lemma runStep_id_of_noTag (step : Step)
    (hspec : ∀ t rep rest, step t = some (rep, rest) → hasTag t = true)
    {s : List Char} (h : hasTag s = false) : runStep step s = s :=
  rewriteF_eq_self_of_guard step hasTag
    (fun t r ht => by
      obtain ⟨rep, rest⟩ := r
      exact hspec t rep rest ht)
    (fun a t ht => hasTag_append_left a ht) s h s.length

lemma runStep_id_of_flat {s : List Char} (h : has3Nl s = false) : runStep stepNl s = s :=
  rewriteF_eq_self_of_guard stepNl has3Nl
    (fun t r ht => by
      obtain ⟨rep, rest⟩ := r
      exact (stepNl_spec ht).1)
    (fun a t ht => has3Nl_append_left a ht) s h s.length

/- ### Properties of the whole normalizer -/

lemma normalizeToMarkdown_eq (input : String) (h : input.isEmpty = false) :
    normalizeToMarkdown input =
      String.mk (jsTrimChars (runStep stepNl (runStep stepStrip (runStep stepUlOl (runStep stepLi
        (runStep stepBlockquote (runStep stepAnchor (runStep stepItalic (runStep stepBold
        (runStep stepPClose (runStep stepPOpen (runStep stepBr (runStep stepHeading
        (runStep stepCRLF input.data)))))))))))))) := by
  unfold normalizeToMarkdown
  rw [if_neg (by simp [h])]

lemma normalize_data_eq (input : String) (h : input.isEmpty = false) :
    (normalizeToMarkdown input).data =
      jsTrimChars (runStep stepNl (runStep stepStrip (runStep stepUlOl (runStep stepLi
        (runStep stepBlockquote (runStep stepAnchor (runStep stepItalic (runStep stepBold
        (runStep stepPClose (runStep stepPOpen (runStep stepBr (runStep stepHeading
        (runStep stepCRLF input.data))))))))))))) := by
  rw [normalizeToMarkdown_eq input h]

lemma normalize_noTag (input : String) :
    hasTag (normalizeToMarkdown input).data = false := by
  cases h : input.isEmpty with
  | true =>
    unfold normalizeToMarkdown
    rw [if_pos (by simp [h])]
    rfl
  | false =>
    rw [normalize_data_eq input h]
    apply hasTag_jsTrim
    apply rewriteF_stepNl_noTag
    exact rewriteF_stepStrip_noTag _ _ (le_refl _)

lemma normalize_no3Nl (input : String) :
    has3Nl (normalizeToMarkdown input).data = false := by
  cases h : input.isEmpty with
  | true =>
    unfold normalizeToMarkdown
    rw [if_pos (by simp [h])]
    rfl
  | false =>
    rw [normalize_data_eq input h]
    apply has3Nl_jsTrim
    exact (rewriteF_stepNl_flat _ _ (le_refl _)).1

lemma normalize_trimmed (input : String) :
    jsTrimChars (normalizeToMarkdown input).data = (normalizeToMarkdown input).data := by
  cases h : input.isEmpty with
  | true =>
    unfold normalizeToMarkdown
    rw [if_pos (by simp [h])]
    rfl
  | false =>
    rw [normalize_data_eq input h]
    exact jsTrimChars_idem _

lemma normalize_chars (input : String) :
    ∀ c ∈ (normalizeToMarkdown input).data, c ∈ input.data ∨ c ∈ repExtra := by
  cases h : input.isEmpty with
  | true =>
    unfold normalizeToMarkdown
    rw [if_pos (by simp [h])]
    intro c hc
    simp [String.data] at hc
  | false =>
    rw [normalize_data_eq input h]
    have lift : ∀ (step : Step),
        (∀ t rep rest, step t = some (rep, rest) →
          (∀ x ∈ rep, x ∈ t ∨ x ∈ repExtra) ∧ rest <:+ t) →
        ∀ (s : List Char), (∀ x ∈ s, x ∈ input.data ∨ x ∈ repExtra) →
        ∀ x ∈ runStep step s, x ∈ input.data ∨ x ∈ repExtra := by
      intro step hspec s hs x hx
      rcases rewriteF_chars step repExtra hspec s.length s x hx with h1 | h1
      · exact hs x h1
      · exact Or.inr h1
    have h0 : ∀ x ∈ input.data, x ∈ input.data ∨ x ∈ repExtra := fun x hx => Or.inl hx
    have h1 := lift stepCRLF
      (fun t rep rest ht => ⟨(stepCRLF_spec ht).2.1, (stepCRLF_spec ht).2.2⟩) _ h0
    have h2 := lift stepHeading
      (fun t rep rest ht => ⟨(stepHeading_spec ht).2.1, (stepHeading_spec ht).2.2⟩) _ h1
    have h3 := lift stepBr
      (fun t rep rest ht => ⟨(stepBr_spec ht).2.1, (stepBr_spec ht).2.2⟩) _ h2
    have h4 := lift stepPOpen
      (fun t rep rest ht => ⟨(stepPOpen_spec ht).2.1, (stepPOpen_spec ht).2.2⟩) _ h3
    have h5 := lift stepPClose
      (fun t rep rest ht => ⟨(stepPClose_spec ht).2.1, (stepPClose_spec ht).2.2⟩) _ h4
    have h6 := lift stepBold
      (fun t rep rest ht => ⟨(stepBold_spec ht).2.1, (stepBold_spec ht).2.2⟩) _ h5
    have h7 := lift stepItalic
      (fun t rep rest ht => ⟨(stepItalic_spec ht).2.1, (stepItalic_spec ht).2.2⟩) _ h6
    have h8 := lift stepAnchor
      (fun t rep rest ht => ⟨(stepAnchor_spec ht).2.1, (stepAnchor_spec ht).2.2⟩) _ h7
    have h9 := lift stepBlockquote
      (fun t rep rest ht => ⟨(stepBlockquote_spec ht).2.1, (stepBlockquote_spec ht).2.2⟩) _ h8
    have h10 := lift stepLi
      (fun t rep rest ht => ⟨(stepLi_spec ht).2.1, (stepLi_spec ht).2.2⟩) _ h9
    have h11 := lift stepUlOl
      (fun t rep rest ht => ⟨(stepUlOl_spec ht).2.1, (stepUlOl_spec ht).2.2⟩) _ h10
    have h12 := lift stepStrip
      (fun t rep rest ht => ⟨(stepStrip_spec ht).2.1, (stepStrip_spec ht).2.2⟩) _ h11
    have h13 := lift stepNl
      (fun t rep rest ht => ⟨(stepNl_spec ht).2.1, (stepNl_spec ht).2.2⟩) _ h12
    intro c hc
    exact h13 c (jsTrimChars_subset hc)

lemma isEmpty_true_nil {s : String} (h : s.isEmpty = true) : s = "" := by
  cases s with
  | mk d =>
    cases d with
    | nil => rfl
    | cons c cs =>
      exfalso
      have h2 : String.utf8ByteSize.go (c :: cs) = 0 := by
        simpa [String.isEmpty, String.endPos, String.utf8ByteSize, String.Pos.ext_iff] using h
      have h3 : String.utf8ByteSize.go (c :: cs) =
          String.utf8ByteSize.go cs + c.utf8Size := rfl
      have h4 := Char.utf8Size_pos c
      omega

lemma normalize_fixed (y : String) (hTag : hasTag y.data = false)
    (h3 : has3Nl y.data = false) (hCR : '\r' ∉ y.data)
    (hTrim : jsTrimChars y.data = y.data) : normalizeToMarkdown y = y := by
  cases hy : y.isEmpty with
  | true =>
    have he := isEmpty_true_nil hy
    rw [he]
    rfl
  | false =>
    rw [normalizeToMarkdown_eq y hy,
      runStep_id_of_noCR hCR,
      runStep_id_of_noTag stepHeading (fun t rep rest ht => (stepHeading_spec ht).1) hTag,
      runStep_id_of_noTag stepBr (fun t rep rest ht => (stepBr_spec ht).1) hTag,
      runStep_id_of_noTag stepPOpen (fun t rep rest ht => (stepPOpen_spec ht).1) hTag,
      runStep_id_of_noTag stepPClose (fun t rep rest ht => (stepPClose_spec ht).1) hTag,
      runStep_id_of_noTag stepBold (fun t rep rest ht => (stepBold_spec ht).1) hTag,
      runStep_id_of_noTag stepItalic (fun t rep rest ht => (stepItalic_spec ht).1) hTag,
      runStep_id_of_noTag stepAnchor (fun t rep rest ht => (stepAnchor_spec ht).1) hTag,
      runStep_id_of_noTag stepBlockquote (fun t rep rest ht => (stepBlockquote_spec ht).1) hTag,
      runStep_id_of_noTag stepLi (fun t rep rest ht => (stepLi_spec ht).1) hTag,
      runStep_id_of_noTag stepUlOl (fun t rep rest ht => (stepUlOl_spec ht).1) hTag,
      runStep_id_of_noTag stepStrip (fun t rep rest ht => (stepStrip_spec ht).1) hTag,
      runStep_id_of_flat h3,
      hTrim]

/- ### C3 -/

/-- C3: for every input string, including malformed or unterminated HTML,
the normalizer output contains no HTML tag: no substring consisting of
`<`, then one or more characters none of which is `>`, then `>`. Stated
as: the output character list never decomposes as
`a ++ '<' :: (b ++ '>' :: c)` with `b` non-empty and `>`-free. -/
theorem c3_normalize_strips_all_tags (input : String) :
    ∀ a b c : List Char, b ≠ [] → '>' ∉ b →
      (normalizeToMarkdown input).data ≠ a ++ '<' :: (b ++ '>' :: c) := by
  intro a b c hbne hgt heq
  obtain ⟨d, ds, rfl⟩ := List.exists_cons_of_ne_nil hbne
  have hd : d ≠ '>' := fun hdd => hgt (by rw [← hdd]; exact List.mem_cons_self _ _)
  have hst : startsTagTail ((d :: ds) ++ '>' :: c) = true := by
    rw [List.cons_append]
    exact startsTagTail_iff.mpr ⟨hd, by simp⟩
  have htag : hasTag ('<' :: ((d :: ds) ++ '>' :: c)) = true := by
    rw [hasTag_cons, hst]
    simp
  have htag2 : hasTag (a ++ '<' :: ((d :: ds) ++ '>' :: c)) = true :=
    hasTag_append_left a htag
  have hout := normalize_noTag input
  rw [heq, htag2] at hout
  exact Bool.noConfusion hout

/-- Witness for C3 at the concrete input `"a<x>b"` (whose `<x>` tag is
stripped) and the concrete decomposition `[] ++ '<' :: (['x'] ++ '>' :: ['b'])`. -/
theorem c3_normalize_strips_all_tags_witness :
    (normalizeToMarkdown "a<x>b").data ≠ [] ++ '<' :: (['x'] ++ '>' :: ['b']) :=
  c3_normalize_strips_all_tags "a<x>b" [] ['x'] ['b'] (by decide) (by decide)

/- ### C4 -/

/-- C4, counterexample to the claim as stated: the normalizer is not
idempotent on all inputs. On `"a\r\r\nb"` the CRLF pass scans left to
right, leaves the first lone `\r`, and rewrites the `\r\n` after it,
producing `"a\r\nb"`, which now contains a fresh `\r\n` pair that a second
pass rewrites to `"a\nb"`. -/
theorem c4_normalize_idempotent_counterexample :
    normalizeToMarkdown (normalizeToMarkdown "a\r\r\nb") ≠
      normalizeToMarkdown "a\r\r\nb" := by decide

/-- C4 (amended): the normalizer is idempotent on every input containing
no carriage-return character: if `'\r' ∉ input.data` then
`normalizeToMarkdown (normalizeToMarkdown input) = normalizeToMarkdown input`.
(The second pass is the identity: the first pass's output is tag-free,
carriage-return-free, has no run of three newlines, and is already
trimmed, so every replace and the final trim are no-ops.) -/
theorem c4_normalize_idempotent_amended (input : String) (h : '\r' ∉ input.data) :
    normalizeToMarkdown (normalizeToMarkdown input) = normalizeToMarkdown input := by
  apply normalize_fixed
  · exact normalize_noTag input
  · exact normalize_no3Nl input
  · intro hc
    rcases normalize_chars input '\r' hc with h1 | h1
    · exact h h1
    · revert h1
      decide
  · exact normalize_trimmed input

/-- Witness for the amended C4 at the concrete carriage-return-free input
`"Hello <b>world</b>"`. -/
theorem c4_normalize_idempotent_amended_witness :
    '\r' ∉ ("Hello <b>world</b>" : String).data ∧
    normalizeToMarkdown (normalizeToMarkdown "Hello <b>world</b>") =
      normalizeToMarkdown "Hello <b>world</b>" :=
  ⟨by decide, c4_normalize_idempotent_amended "Hello <b>world</b>" (by decide)⟩

end Publisher
